import Mathlib

/-!
Verification of the AllocX allocator engines (stack/bump allocator,
fixed-chunk pool allocator, free-list heap allocator) against their C++
sources.  The C++ operates on `size_t`/`uintptr_t` values, i.e. unsigned
64-bit integers (LP64); we embed those as natural numbers and take an
explicit `% 2 ^ 64` wherever the C++ computation can wrap around.
Pointers are embedded as their integer addresses.
-/

/-- The modulus of `size_t` / `uintptr_t` arithmetic on the LP64 platforms
the library targets: `2 ^ 64`. -/
def USIZE : Nat := 2 ^ 64

/-- Wrapping `size_t` subtraction: `x - y` computed in unsigned 64-bit
arithmetic, for `x < USIZE`. -/
def wsub (x y : Nat) : Nat := (x + USIZE - y % USIZE) % USIZE

/-- From `src/include/allocx/utils.hpp`, `allocx::utils::calc_padding`:
`(alignment - (address & (alignment - 1))) & (alignment - 1)` in `size_t`
arithmetic.  `alignment - 1` wraps when `alignment = 0`, and
`alignment - (address & (alignment - 1))` wraps when `alignment = 0`;
both are rendered with `% USIZE`. -/
def calc_padding (address alignment : Nat) : Nat :=
  let mask := (alignment + USIZE - 1) % USIZE
  ((alignment + USIZE - (address &&& mask)) % USIZE) &&& mask

/-- From `src/include/allocx/utils.hpp`, `allocx::utils::align_up`:
`(value + alignment - 1) & ~(alignment - 1)` in `size_t` arithmetic.
The 64-bit bitwise complement `~m` is `(USIZE - 1) ^^^ m`. -/
def align_up (value alignment : Nat) : Nat :=
  let mask := (alignment + USIZE - 1) % USIZE
  ((value + mask) % USIZE) &&& ((USIZE - 1) ^^^ mask)

/-- From `src/include/allocx/utils.hpp`, `allocx::utils::align_pointer`:
reinterprets the pointer as a `uintptr_t` and applies `align_up`. -/
def align_pointer (ptr alignment : Nat) : Nat := align_up ptr alignment

/-- Masking with a low-bit mask `2 ^ k - 1` is reduction mod `2 ^ k`. -/
theorem and_mask_low (x k : Nat) : x &&& (2 ^ k - 1) = x % 2 ^ k := by
  apply Nat.eq_of_testBit_eq
  intro i
  simp [Nat.testBit_land, Nat.testBit_two_pow_sub_one, Nat.testBit_mod_two_pow,
    Bool.and_comm]

/-- Masking a 64-bit value with the complement of a low-bit mask clears the
low `k` bits: it rounds down to a multiple of `2 ^ k`. -/
theorem and_mask_high (y k : Nat) (hk : k ≤ 64) (hy : y < 2 ^ 64) :
    y &&& ((2 ^ 64 - 1) ^^^ (2 ^ k - 1)) = 2 ^ k * (y / 2 ^ k) := by
  have hrhs : 2 ^ k * (y / 2 ^ k) = (y >>> k) <<< k := by
    rw [Nat.shiftRight_eq_div_pow, Nat.shiftLeft_eq, Nat.mul_comm]
  rw [hrhs]
  apply Nat.eq_of_testBit_eq
  intro i
  rw [Nat.testBit_land, Nat.testBit_xor, Nat.testBit_two_pow_sub_one,
    Nat.testBit_two_pow_sub_one, Nat.testBit_shiftLeft, Nat.testBit_shiftRight]
  by_cases h1 : i < k
  · have h2 : i < 64 := lt_of_lt_of_le h1 hk
    simp [h1, h2, Nat.not_le.mpr h1]
  · by_cases h2 : i < 64
    · have h3 : k ≤ i := Nat.not_lt.mp h1
      have h4 : k + (i - k) = i := by omega
      simp [h1, h2, h3, h4, ge_iff_le]
    · have h3 : y.testBit i = false := by
        apply Nat.testBit_lt_two_pow
        exact lt_of_lt_of_le hy (Nat.pow_le_pow_right (by norm_num) (by omega))
      have h4 : k ≤ i := by omega
      have h5 : k + (i - k) = i := by omega
      simp [h1, h2, h4, h5, ge_iff_le, h3]

/-- For a power-of-two alignment `2 ^ k` representable in `size_t`, the
wrapping mask `(alignment + USIZE - 1) % USIZE` is just `2 ^ k - 1`. -/
theorem pow2_mask (k : Nat) (hk : k < 64) :
    (2 ^ k + USIZE - 1) % USIZE = 2 ^ k - 1 := by
  have h1 : (1 : Nat) ≤ 2 ^ k := Nat.one_le_two_pow
  have h2 : 2 ^ k < USIZE := by
    have := Nat.pow_lt_pow_right (a := 2) (by norm_num) hk
    simpa [USIZE] using this
  have h3 : 2 ^ k + USIZE - 1 = USIZE + (2 ^ k - 1) := by omega
  rw [h3, Nat.add_mod_left, Nat.mod_eq_of_lt (by omega)]

/-- Characterization of `calc_padding` at power-of-two alignments: it equals
the mathematical padding `(A - x % A) % A`. -/
theorem calc_padding_pow2 (x k : Nat) (hk : k < 64) :
    calc_padding x (2 ^ k) = (2 ^ k - x % 2 ^ k) % 2 ^ k := by
  have h2 : 2 ^ k < USIZE := by
    have := Nat.pow_lt_pow_right (a := 2) (by norm_num) hk
    simpa [USIZE] using this
  have hr : x &&& (2 ^ k - 1) = x % 2 ^ k := and_mask_low x k
  have hrlt : x % 2 ^ k < 2 ^ k := Nat.mod_lt _ (Nat.pos_pow_of_pos k (by norm_num))
  unfold calc_padding
  simp only [pow2_mask k hk, hr]
  have h3 : 2 ^ k + USIZE - x % 2 ^ k = USIZE + (2 ^ k - x % 2 ^ k) := by omega
  rw [h3, Nat.add_mod_left, Nat.mod_eq_of_lt (by omega), and_mask_low]

/-- The address advanced by its padding is aligned: key consequence used by
all three engines. -/
theorem calc_padding_aligns (x k : Nat) (hk : k < 64) :
    (x + calc_padding x (2 ^ k)) % 2 ^ k = 0 := by
  rw [calc_padding_pow2 x k hk]
  have hA : 0 < 2 ^ k := Nat.pos_pow_of_pos k (by norm_num)
  rcases Nat.eq_zero_or_pos (x % 2 ^ k) with h | h
  · simp [Nat.add_mod, h, Nat.mod_self]
  · have hrlt : x % 2 ^ k < 2 ^ k := Nat.mod_lt _ hA
    have e1 : (2 ^ k - x % 2 ^ k) % 2 ^ k = 2 ^ k - x % 2 ^ k :=
      Nat.mod_eq_of_lt (by omega)
    rw [e1, Nat.add_mod, e1]
    have e2 : x % 2 ^ k + (2 ^ k - x % 2 ^ k) = 2 ^ k := by omega
    rw [e2, Nat.mod_self]

/-- The padding at a power-of-two alignment is bounded by the alignment. -/
theorem calc_padding_lt (x k : Nat) (hk : k < 64) :
    calc_padding x (2 ^ k) < 2 ^ k := by
  rw [calc_padding_pow2 x k hk]
  exact Nat.mod_lt _ (Nat.pos_pow_of_pos k (by norm_num))

/-- Characterization of `align_up` at power-of-two alignments `2 ^ k` when
`value + 2 ^ k - 1` does not wrap around `size_t`. -/
theorem align_up_pow2 (x k : Nat) (hk : k < 64) (hx : x + 2 ^ k - 1 < USIZE) :
    align_up x (2 ^ k) = 2 ^ k * ((x + 2 ^ k - 1) / 2 ^ k) := by
  have h1 : (1 : Nat) ≤ 2 ^ k := Nat.one_le_two_pow
  unfold align_up
  simp only [pow2_mask k hk]
  have h3 : x + (2 ^ k - 1) = x + 2 ^ k - 1 := by omega
  rw [h3, Nat.mod_eq_of_lt hx]
  exact and_mask_high _ k (by omega) hx

/-- Rounding up with `align_up` at a power-of-two alignment yields a multiple
of the alignment that is at least the input value. -/
theorem align_up_pow2_facts (x k : Nat) (hk : k < 64) (hx : x + 2 ^ k - 1 < USIZE) :
    align_up x (2 ^ k) % 2 ^ k = 0 ∧ x ≤ align_up x (2 ^ k) := by
  rw [align_up_pow2 x k hk hx]
  constructor
  · simp [Nat.mul_mod_right]
  · have h1 : (1 : Nat) ≤ 2 ^ k := Nat.one_le_two_pow
    have h2 := Nat.div_add_mod (x + 2 ^ k - 1) (2 ^ k)
    have h3 : (x + 2 ^ k - 1) % 2 ^ k < 2 ^ k :=
      Nat.mod_lt _ (Nat.pos_pow_of_pos k (by norm_num))
    omega

/-- C9 counterexample: at the non-power-of-two alignment `A = 3` and address
`x = 2`, the source's mask-based `calc_padding` returns `0` while the
claimed identity `(A - x % A) % A` gives `1`. -/
theorem calc_padding_not_mod_identity :
    ¬ (calc_padding 2 3 = (3 - 2 % 3) % 3) := by decide

/-- C9 (amended): the identity `padding(x, A) = (A - (x mod A)) mod A` holds
for every address `x` and every power-of-two alignment `A = 2 ^ k`
representable in `size_t` (`k < 64`); for non-power-of-two alignments the
mask-based source computation deviates from the identity. -/
theorem calc_padding_mod_identity (x k : Nat) (hk : k < 64) :
    calc_padding x (2 ^ k) = (2 ^ k - x % 2 ^ k) % 2 ^ k :=
  calc_padding_pow2 x k hk

/-- Witness for C9: concrete instance `x = 5`, `A = 8`. -/
theorem calc_padding_mod_identity_witness :
    calc_padding 5 (2 ^ 3) = (2 ^ 3 - 5 % 2 ^ 3) % 2 ^ 3 :=
  calc_padding_mod_identity 5 3 (by decide)

/-!
Bump (stack) allocator, from `src/src/stack_allocator.cpp` and its header.
State: backing buffer address `m_memory` (0 models `nullptr`), capacity
`m_size`, cursor `m_offset`, ownership flag.  All `size_t` computations in
`allocate` are taken `% USIZE`, exactly where the C++ can wrap.
-/

/-- Absorb an inner reduction on the right summand of a wrapped sum. -/
theorem add_mod_right_mod (a b n : Nat) : (a + b % n) % n = (a + b) % n := by
  conv_lhs => rw [Nat.add_mod]
  rw [Nat.mod_mod_of_dvd b dvd_rfl, ← Nat.add_mod]

/-- Absorb an inner reduction on the left summand of a wrapped sum. -/
theorem add_mod_left_mod (a b n : Nat) : (a % n + b) % n = (a + b) % n := by
  conv_lhs => rw [Nat.add_mod]
  rw [Nat.mod_mod_of_dvd a dvd_rfl, ← Nat.add_mod]

structure StackAllocator where
  m_memory : Nat
  m_size : Nat
  m_offset : Nat
  m_owns_memory : Bool
deriving Repr, DecidableEq

/-- Owned construction `StackAllocator(size)`: acquires a buffer (modelled by
the address `buf` the host allocator returns) when `size > 0`. -/
def StackAllocator.mkOwned (buf size : Nat) : StackAllocator :=
  { m_memory := if size > 0 then buf else 0, m_size := size, m_offset := 0,
    m_owns_memory := true }

/-- Borrowed construction `StackAllocator(buffer, size)`. -/
def StackAllocator.mkBorrowed (buffer size : Nat) : StackAllocator :=
  { m_memory := buffer, m_size := size, m_offset := 0, m_owns_memory := false }

/-- `StackAllocator::allocate(size, alignment)`. -/
def StackAllocator.allocate (s : StackAllocator) (size alignment : Nat) :
    Option Nat × StackAllocator :=
  if size = 0 then (none, s)
  else
    let current_addr := (s.m_memory + s.m_offset) % USIZE
    let padding := calc_padding current_addr alignment
    if s.m_size < (s.m_offset + padding + size) % USIZE then (none, s)
    else
      let aligned_offset := (s.m_offset + padding) % USIZE
      let ptr := (s.m_memory + aligned_offset) % USIZE
      (some ptr, { s with m_offset := (aligned_offset + size) % USIZE })

/-- `StackAllocator::deallocate` is a documented no-op. -/
def StackAllocator.deallocate (s : StackAllocator) (_ptr _size : Nat) :
    StackAllocator := s

/-- `StackAllocator::reset`. -/
def StackAllocator.reset (s : StackAllocator) : StackAllocator :=
  { s with m_offset := 0 }

/-- `StackAllocator::get_marker`. -/
def StackAllocator.get_marker (s : StackAllocator) : Nat := s.m_offset

/-- `StackAllocator::rollback(marker)`; the debug assertion
`marker <= m_offset` becomes a precondition of the theorems below. -/
def StackAllocator.rollback (s : StackAllocator) (marker : Nat) : StackAllocator :=
  { s with m_offset := marker }

/-- `StackAllocator::total_size`. -/
def StackAllocator.total_size (s : StackAllocator) : Nat := s.m_size

/-- `StackAllocator::used_size`. -/
def StackAllocator.used_size (s : StackAllocator) : Nat := s.m_offset

/-- `StackAllocator::free_size`: `m_size - m_offset` in `size_t`. -/
def StackAllocator.free_size (s : StackAllocator) : Nat := wsub s.m_size s.m_offset

/-- Runs a list of `(size, alignment)` allocation requests in order and
collects the `(pointer, size)` pairs of the successful ones. -/
def StackAllocator.allocList (s : StackAllocator) :
    List (Nat × Nat) → List (Nat × Nat) × StackAllocator
  | [] => ([], s)
  | (sz, al) :: rest =>
    match s.allocate sz al with
    | (some p, s1) =>
      let r := s1.allocList rest
      ((p, sz) :: r.1, r.2)
    | (none, s1) => s1.allocList rest

/-- Two allocations `(pointer, size)` occupy disjoint byte ranges. -/
def intervalsDisjoint (a b : Nat × Nat) : Prop :=
  a.1 + a.2 ≤ b.1 ∨ b.1 + b.2 ≤ a.1

instance (a b : Nat × Nat) : Decidable (intervalsDisjoint a b) := by
  unfold intervalsDisjoint; infer_instance

/-- A failed allocation leaves the state unchanged. -/
theorem StackAllocator.allocate_none_eq (s : StackAllocator) (size align : Nat)
    (s' : StackAllocator) (h : s.allocate size align = (none, s')) : s' = s := by
  unfold StackAllocator.allocate at h
  by_cases h0 : size = 0
  · simp [h0] at h; exact h.symm
  · simp only [h0, if_false] at h
    by_cases h1 : s.m_size <
        (s.m_offset + calc_padding ((s.m_memory + s.m_offset) % USIZE) align + size) % USIZE
    · simp [h1] at h; exact h.symm
    · simp [h1] at h

/-- Allocation never changes the buffer address or the capacity. -/
theorem StackAllocator.allocate_frame (s : StackAllocator) (size align : Nat) :
    (s.allocate size align).2.m_memory = s.m_memory ∧
    (s.allocate size align).2.m_size = s.m_size := by
  unfold StackAllocator.allocate
  by_cases h0 : size = 0
  · simp [h0]
  · simp only [h0, if_false]
    by_cases h1 : s.m_size <
        (s.m_offset + calc_padding ((s.m_memory + s.m_offset) % USIZE) align + size) % USIZE
    · simp [h1]
    · simp [h1]

/-- Bounds satisfied by every successful allocation, under the conditions a
real LP64 machine imposes anyway (the region lies inside the address space)
plus moderate bounds keeping every `size_t` sum below `2 ^ 64`. -/
theorem StackAllocator.allocate_some_bounds (s : StackAllocator)
    (size align k : Nat) (p : Nat) (s' : StackAllocator)
    (hm : s.m_size ≤ 2 ^ 62) (hoff : s.m_offset ≤ s.m_size)
    (hmem : s.m_memory + s.m_size < USIZE)
    (hsz : size ≤ 2 ^ 62) (hk : k ≤ 62) (hal : align = 2 ^ k)
    (hsucc : s.allocate size align = (some p, s')) :
    s.m_memory + s.m_offset ≤ p ∧ p + size = s.m_memory + s'.m_offset ∧
    s.m_offset ≤ s'.m_offset ∧ s'.m_offset ≤ s.m_size ∧
    s'.m_memory = s.m_memory ∧ s'.m_size = s.m_size := by
  have hx : (s.m_memory + s.m_offset) % USIZE = s.m_memory + s.m_offset :=
    Nat.mod_eq_of_lt (by omega)
  have hpadlt : calc_padding (s.m_memory + s.m_offset) align < 2 ^ k := by
    rw [hal]; exact calc_padding_lt _ k (by omega)
  have hklt : (2 : Nat) ^ k ≤ 2 ^ 62 := Nat.pow_le_pow_right (by norm_num) hk
  unfold StackAllocator.allocate at hsucc
  by_cases h0 : size = 0
  · simp [h0] at hsucc
  · simp only [h0, if_false, hx] at hsucc
    set pad := calc_padding (s.m_memory + s.m_offset) align with hpad
    have hsum : (s.m_offset + pad + size) % USIZE = s.m_offset + pad + size := by
      apply Nat.mod_eq_of_lt
      have : s.m_offset + pad + size < 2 ^ 62 + 2 ^ 62 + 2 ^ 62 := by omega
      calc s.m_offset + pad + size < 2 ^ 62 + 2 ^ 62 + 2 ^ 62 := this
        _ < USIZE := by norm_num [USIZE]
    rw [hsum] at hsucc
    by_cases h1 : s.m_size < s.m_offset + pad + size
    · simp [h1] at hsucc
    · simp only [h1, if_false] at hsucc
      have hfit : s.m_offset + pad + size ≤ s.m_size := Nat.not_lt.mp h1
      have hao : (s.m_offset + pad) % USIZE = s.m_offset + pad :=
        Nat.mod_eq_of_lt (by omega)
      rw [hao] at hsucc
      have hptr : (s.m_memory + (s.m_offset + pad)) % USIZE
          = s.m_memory + (s.m_offset + pad) := Nat.mod_eq_of_lt (by omega)
      rw [hptr, hsum] at hsucc
      rw [Prod.mk.injEq] at hsucc
      obtain ⟨hp, hs'⟩ := hsucc
      injection hp with hp
      subst hp
      subst hs'
      exact ⟨by omega, by simp; omega, by simp; omega, by simp; omega, rfl, rfl⟩

/-- Combined shape of one `allocList` run: the final state keeps the buffer
and capacity, the cursor only moves forward, and every successful pointer
interval sits between the starting and final cursor positions. -/
theorem StackAllocator.allocList_spec (ops : List (Nat × Nat)) (s : StackAllocator)
    (hm : s.m_size ≤ 2 ^ 62) (hoff : s.m_offset ≤ s.m_size)
    (hmem : s.m_memory + s.m_size < USIZE)
    (hops : ∀ q ∈ ops, q.1 ≤ 2 ^ 62 ∧ ∃ k, k ≤ 62 ∧ q.2 = 2 ^ k) :
    (s.allocList ops).2.m_memory = s.m_memory ∧
    (s.allocList ops).2.m_size = s.m_size ∧
    s.m_offset ≤ (s.allocList ops).2.m_offset ∧
    (s.allocList ops).2.m_offset ≤ s.m_size ∧
    (∀ r ∈ (s.allocList ops).1,
      s.m_memory + s.m_offset ≤ r.1 ∧
      r.1 + r.2 ≤ s.m_memory + (s.allocList ops).2.m_offset) ∧
    List.Pairwise intervalsDisjoint (s.allocList ops).1 := by
  induction ops generalizing s with
  | nil =>
    exact ⟨rfl, rfl, Nat.le_refl _, hoff,
      by intro r hr; exact absurd hr (List.not_mem_nil r), List.Pairwise.nil⟩
  | cons q rest ih =>
    obtain ⟨sz, al⟩ := q
    obtain ⟨hsz, k, hk, hal⟩ := hops (sz, al) (by simp)
    have hops' : ∀ q ∈ rest, q.1 ≤ 2 ^ 62 ∧ ∃ k, k ≤ 62 ∧ q.2 = 2 ^ k := by
      intro q hq; exact hops q (by simp [hq])
    rcases hcase : s.allocate sz al with ⟨res, s1⟩
    cases res with
    | none =>
      have hs1 : s1 = s := StackAllocator.allocate_none_eq s sz al s1 hcase
      subst hs1
      have := ih s1 hm hoff hmem hops'
      simpa [StackAllocator.allocList, hcase] using this
    | some p =>
      obtain ⟨hb1, hb2, hb3, hb4, hb5, hb6⟩ :=
        StackAllocator.allocate_some_bounds s sz al k p s1 hm hoff hmem hsz hk hal hcase
      have ih1 := ih s1 (hb6 ▸ hm) (hb6 ▸ hb4) (by rw [hb5, hb6]; exact hmem) hops'
      obtain ⟨ih1a, ih1b, ih1c, ih1d, ih1e, ih1f⟩ := ih1
      have hall : ∀ r ∈ (s1.allocList rest).1, p + sz ≤ r.1 := by
        intro r hr
        have := (ih1e r hr).1
        rw [hb5] at this
        omega
      refine ⟨?_, ?_, ?_, ?_, ?_, ?_⟩ <;>
        simp only [StackAllocator.allocList, hcase]
      · rw [ih1a, hb5]
      · rw [ih1b, hb6]
      · omega
      · rw [← hb6]; exact ih1d
      · intro r hr
        rcases List.mem_cons.mp hr with h | h
        · subst h
          constructor
          · show s.m_memory + s.m_offset ≤ p
            omega
          · show p + sz ≤ s.m_memory + (s1.allocList rest).2.m_offset
            have h3 : s1.m_offset ≤ (s1.allocList rest).2.m_offset := ih1c
            omega
        · obtain ⟨h1, h2⟩ := ih1e r h
          rw [hb5] at h1 h2
          exact ⟨by omega, h2⟩
      · refine List.Pairwise.cons ?_ ih1f
        intro r hr
        exact Or.inl (hall r hr)

/-- C1 counterexample: on a 100-byte bump allocator at address 4096, the
request sequence sizes 60, then `2 ^ 64 - 50`, then 30 (alignment 1) makes
the wrapped `size_t` bounds check pass for the huge request, the cursor
moves backwards, and the first and third returned pointers overlap. -/
theorem stack_allocate_overlap_counterexample :
    ¬ List.Pairwise intervalsDisjoint
      ((StackAllocator.allocList ⟨4096, 100, 0, false⟩
        [(60, 1), (USIZE - 50, 1), (30, 1)]).1) := by decide

/-- C1 (amended): for the bump allocator, `allocate(size, align)` returns
null without state change when `size = 0` and when the `size_t` test
`cursor + pad + size > cap` holds; otherwise it advances the cursor by
`pad + size` and returns `base + old cursor + pad`, a pointer aligned to the
power-of-two `align`.  Two successful allocations never overlap provided no
`size_t` wrap occurs, which the bounds `cap ≤ 2 ^ 62`, request sizes
`≤ 2 ^ 62` and alignments `2 ^ k` with `k ≤ 62` guarantee (the unamended
claim fails for wrapping request sizes, see the counterexample). -/
theorem stack_allocate_spec :
    (∀ (s : StackAllocator) (align : Nat), s.allocate 0 align = (none, s)) ∧
    (∀ (s : StackAllocator) (size align : Nat), size ≠ 0 →
      s.m_size <
        (s.m_offset + calc_padding ((s.m_memory + s.m_offset) % USIZE) align + size) % USIZE →
      s.allocate size align = (none, s)) ∧
    (∀ (s : StackAllocator) (size align : Nat), size ≠ 0 →
      ¬ s.m_size <
        (s.m_offset + calc_padding ((s.m_memory + s.m_offset) % USIZE) align + size) % USIZE →
      s.allocate size align =
        (some ((s.m_memory + s.m_offset +
            calc_padding ((s.m_memory + s.m_offset) % USIZE) align) % USIZE),
         { s with m_offset :=
            (s.m_offset + calc_padding ((s.m_memory + s.m_offset) % USIZE) align + size)
              % USIZE })) ∧
    (∀ (s : StackAllocator) (size align k : Nat) (p : Nat) (s' : StackAllocator),
      k < 64 → align = 2 ^ k → s.allocate size align = (some p, s') →
      p % align = 0) ∧
    (∀ (ops : List (Nat × Nat)) (s : StackAllocator),
      s.m_size ≤ 2 ^ 62 → s.m_offset ≤ s.m_size → s.m_memory + s.m_size < USIZE →
      (∀ q ∈ ops, q.1 ≤ 2 ^ 62 ∧ ∃ k, k ≤ 62 ∧ q.2 = 2 ^ k) →
      List.Pairwise intervalsDisjoint (s.allocList ops).1) := by
  refine ⟨?_, ?_, ?_, ?_, ?_⟩
  · intro s align
    simp [StackAllocator.allocate]
  · intro s size align h0 h1
    simp only [StackAllocator.allocate, if_neg h0, if_pos h1]
  · intro s size align h0 h1
    simp only [StackAllocator.allocate, if_neg h0, if_neg h1]
    rw [add_mod_right_mod, ← Nat.add_assoc, add_mod_left_mod]
  · intro s size align k p s' hk hal hsucc
    subst hal
    by_cases h0 : size = 0
    · simp only [StackAllocator.allocate, if_pos h0] at hsucc
      simp at hsucc
    · simp only [StackAllocator.allocate, if_neg h0] at hsucc
      set x := (s.m_memory + s.m_offset) % USIZE with hxdef
      set pad := calc_padding x (2 ^ k) with hpaddef
      by_cases h1 : s.m_size < (s.m_offset + pad + size) % USIZE
      · rw [if_pos h1] at hsucc
        simp at hsucc
      · rw [if_neg h1, Prod.mk.injEq] at hsucc
        obtain ⟨hp, -⟩ := hsucc
        injection hp with hp
        subst hp
        have hdvd : 2 ^ k ∣ USIZE := Nat.pow_dvd_pow 2 (by omega)
        calc ((s.m_memory + (s.m_offset + pad) % USIZE) % USIZE) % 2 ^ k
            = (s.m_memory + (s.m_offset + pad) % USIZE) % 2 ^ k :=
              Nat.mod_mod_of_dvd _ hdvd
          _ = (s.m_memory + (s.m_offset + pad)) % 2 ^ k := by
              rw [Nat.add_mod, Nat.mod_mod_of_dvd _ hdvd, ← Nat.add_mod]
          _ = (x + pad) % 2 ^ k := by
              rw [hxdef, Nat.add_mod ((s.m_memory + s.m_offset) % USIZE) pad,
                Nat.mod_mod_of_dvd _ hdvd, ← Nat.add_mod, ← Nat.add_assoc]
          _ = 0 := calc_padding_aligns x k hk
  · intro ops s hm hoff hmem hops
    exact (StackAllocator.allocList_spec ops s hm hoff hmem hops).2.2.2.2.2

/-- Witness for C1: the zero-size clause, the exhaustion clause and the
no-overlap clause of `stack_allocate_spec` at concrete inputs. -/
theorem stack_allocate_spec_witness :
    StackAllocator.allocate ⟨4096, 100, 0, false⟩ 0 8 =
      (none, ⟨4096, 100, 0, false⟩) ∧
    StackAllocator.allocate ⟨4096, 100, 60, false⟩ 50 1 =
      (none, ⟨4096, 100, 60, false⟩) ∧
    List.Pairwise intervalsDisjoint
      ((StackAllocator.allocList ⟨4096, 100, 0, false⟩ [(60, 1), (30, 2)]).1) := by
  obtain ⟨h1, h2, h3, h4, h5⟩ := stack_allocate_spec
  refine ⟨h1 _ 8, ?_, ?_⟩
  · exact h2 ⟨4096, 100, 60, false⟩ 50 1 (by decide) (by decide)
  · refine h5 [(60, 1), (30, 2)] ⟨4096, 100, 0, false⟩ (by norm_num)
      (by norm_num) (by norm_num [USIZE]) ?_
    intro q hq
    simp only [List.mem_cons, List.not_mem_nil, or_false] at hq
    rcases hq with rfl | rfl
    · exact ⟨by norm_num, 0, by norm_num, by norm_num⟩
    · exact ⟨by norm_num, 1, by norm_num, by norm_num⟩

/-- The run of an allocation list never changes the buffer address or the
capacity of a bump allocator. -/
theorem StackAllocator.allocList_frame (ops : List (Nat × Nat)) (s : StackAllocator) :
    (s.allocList ops).2.m_memory = s.m_memory ∧
    (s.allocList ops).2.m_size = s.m_size := by
  induction ops generalizing s with
  | nil => exact ⟨rfl, rfl⟩
  | cons q rest ih =>
    obtain ⟨sz, al⟩ := q
    rcases hcase : s.allocate sz al with ⟨res, s1⟩
    have hf := StackAllocator.allocate_frame s sz al
    rw [hcase] at hf
    cases res with
    | none =>
      simp only [StackAllocator.allocList, hcase]
      exact ⟨(ih s1).1.trans hf.1, (ih s1).2.trans hf.2⟩
    | some p =>
      simp only [StackAllocator.allocList, hcase]
      exact ⟨(ih s1).1.trans hf.1, (ih s1).2.trans hf.2⟩

/-- C8: taking a savepoint with `get_marker`, performing any sequence of
allocations, then rolling back to the savepoint restores the cursor
(`used_size`) and `free_size` exactly to their values when the savepoint was
taken; the debug-assertion precondition is `marker ≤ cursor` at rollback
time. -/
theorem stack_savepoint_roundtrip (s : StackAllocator) (ops : List (Nat × Nat))
    (hpre : s.get_marker ≤ (s.allocList ops).2.m_offset) :
    ((s.allocList ops).2.rollback s.get_marker).m_offset = s.m_offset ∧
    ((s.allocList ops).2.rollback s.get_marker).used_size = s.used_size ∧
    ((s.allocList ops).2.rollback s.get_marker).free_size = s.free_size := by
  have hframe := StackAllocator.allocList_frame ops s
  refine ⟨rfl, rfl, ?_⟩
  unfold StackAllocator.free_size StackAllocator.rollback StackAllocator.get_marker
  rw [hframe.2]

/-- Witness for C8: a 100-byte allocator with cursor 20, one allocation of
10 bytes, rollback to the marker. -/
theorem stack_savepoint_roundtrip_witness :
    ((StackAllocator.allocList ⟨4096, 100, 20, false⟩ [(10, 1)]).2.rollback
      (StackAllocator.get_marker ⟨4096, 100, 20, false⟩)).m_offset = 20 ∧
    ((StackAllocator.allocList ⟨4096, 100, 20, false⟩ [(10, 1)]).2.rollback
      (StackAllocator.get_marker ⟨4096, 100, 20, false⟩)).used_size =
      StackAllocator.used_size ⟨4096, 100, 20, false⟩ ∧
    ((StackAllocator.allocList ⟨4096, 100, 20, false⟩ [(10, 1)]).2.rollback
      (StackAllocator.get_marker ⟨4096, 100, 20, false⟩)).free_size =
      StackAllocator.free_size ⟨4096, 100, 20, false⟩ :=
  stack_savepoint_roundtrip ⟨4096, 100, 20, false⟩ [(10, 1)] (by decide)

/-- The state the move constructor and the move assignment operator of
`StackAllocator` leave in the moved-from object: null buffer, zero size,
zero cursor, no ownership. -/
def StackAllocator.movedFrom : StackAllocator := ⟨0, 0, 0, false⟩

/-!
Pool allocator, from `src/src/pool_allocator.cpp` and
`src/include/allocx/pool_allocator.hpp`.  The intrusive freelist threaded
through the slots' first words is modelled as the list of slot addresses
read off by following the stored next pointers from `m_free_list`; the
nullptr terminator corresponds to the end of the list, so a successful
`allocate` always pops a nonzero address in any state a real execution can
reach.  `sizeof(void*)` is 8 on the LP64 targets.
-/

structure PoolAllocator where
  m_memory : Nat
  m_memory_size : Nat
  m_chunk_size : Nat
  m_chunk_count : Nat
  m_free_count : Nat
  m_alignment : Nat
  m_free_list : List Nat
  m_owns_memory : Bool
deriving Repr, DecidableEq

/-- `PoolAllocator::init_free_list`: writes into each slot the address of
the next one; traversing the resulting intrusive list visits the slots
`base, base + S, ..., base + (N-1)*S` in order (pointer increments are
`uintptr_t` steps, hence the `% USIZE`). -/
def PoolAllocator.init_free_list (base S N : Nat) : List Nat :=
  (List.range N).map (fun i => (base + i * S) % USIZE)

/-- Owned construction `PoolAllocator(chunk_size, chunk_count, alignment)`.
`raw` is the address returned by `operator new(m_memory_size + alignment)`;
the base is that address aligned up.  `m_chunk_size` is
`align_up(max(chunk_size, sizeof(void*)), alignment)` and `m_memory_size`
the `size_t` product `m_chunk_size * chunk_count`. -/
def PoolAllocator.mkOwned (raw chunk_size chunk_count alignment : Nat) :
    PoolAllocator :=
  let S := align_up (max chunk_size 8) alignment
  let msz := (S * chunk_count) % USIZE
  if 0 < msz then
    let base := align_pointer raw alignment
    { m_memory := base, m_memory_size := msz, m_chunk_size := S,
      m_chunk_count := chunk_count, m_free_count := chunk_count,
      m_alignment := alignment,
      m_free_list := PoolAllocator.init_free_list base S chunk_count,
      m_owns_memory := true }
  else
    { m_memory := 0, m_memory_size := msz, m_chunk_size := S,
      m_chunk_count := chunk_count, m_free_count := chunk_count,
      m_alignment := alignment, m_free_list := [], m_owns_memory := true }

/-- Borrowed construction
`PoolAllocator(buffer, buffer_size, chunk_size, alignment)`. -/
def PoolAllocator.mkBorrowed (buffer buffer_size chunk_size alignment : Nat) :
    PoolAllocator :=
  let base := align_pointer buffer alignment
  let msz := wsub buffer_size (base - buffer)
  let S := align_up (max chunk_size 8) alignment
  let N := msz / S
  { m_memory := base, m_memory_size := msz, m_chunk_size := S,
    m_chunk_count := N, m_free_count := N, m_alignment := alignment,
    m_free_list := if 0 < N then PoolAllocator.init_free_list base S N else [],
    m_owns_memory := false }

/-- `PoolAllocator::allocate` (size and alignment arguments are ignored by
design): pop the freelist head.  `m_free_count` can only be decremented
from a positive value here, since it counts the freelist nodes in every
reachable state. -/
def PoolAllocator.allocate (s : PoolAllocator) : Option Nat × PoolAllocator :=
  match s.m_free_list with
  | [] => (none, s)
  | p :: rest =>
    (some p, { s with m_free_list := rest, m_free_count := s.m_free_count - 1 })

/-- `PoolAllocator::deallocate`: push onto the freelist head unless null. -/
def PoolAllocator.deallocate (s : PoolAllocator) (ptr : Nat) : PoolAllocator :=
  if ptr = 0 then s
  else { s with m_free_list := ptr :: s.m_free_list,
                m_free_count := s.m_free_count + 1 }

/-- `PoolAllocator::reset`. -/
def PoolAllocator.reset (s : PoolAllocator) : PoolAllocator :=
  if 0 < s.m_chunk_count then
    { s with
      m_free_list :=
        PoolAllocator.init_free_list s.m_memory s.m_chunk_size s.m_chunk_count,
      m_free_count := s.m_chunk_count }
  else s

/-- `PoolAllocator::total_size`. -/
def PoolAllocator.total_size (s : PoolAllocator) : Nat := s.m_memory_size

/-- `PoolAllocator::used_size`: `(m_chunk_count - m_free_count) * m_chunk_size`
in `size_t` arithmetic. -/
def PoolAllocator.used_size (s : PoolAllocator) : Nat :=
  (wsub s.m_chunk_count s.m_free_count * s.m_chunk_size) % USIZE

/-- `PoolAllocator::chunk_size`. -/
def PoolAllocator.chunk_size (s : PoolAllocator) : Nat := s.m_chunk_size

/-- `PoolAllocator::chunk_count`. -/
def PoolAllocator.chunk_count (s : PoolAllocator) : Nat := s.m_chunk_count

/-- `PoolAllocator::free_count`. -/
def PoolAllocator.free_count (s : PoolAllocator) : Nat := s.m_free_count

/-- The state the move constructor and move assignment leave in the
moved-from pool: memory, sizes, counts and freelist cleared; `m_chunk_size`
and `m_alignment` are not reset by the source and keep their old values. -/
def PoolAllocator.movedFrom (chunk_size alignment : Nat) : PoolAllocator :=
  ⟨0, 0, chunk_size, 0, 0, alignment, [], false⟩

/-- C6: LIFO reuse.  If `allocate()` succeeds returning `p` (a non-null
pointer, as every successful pool allocation is) and `deallocate(p)` is then
called, the next `allocate()` returns exactly `p`. -/
theorem pool_lifo_reuse (s : PoolAllocator) (p : Nat) (s1 : PoolAllocator)
    (hp : p ≠ 0) (h : s.allocate = (some p, s1)) :
    ∃ s2, (s1.deallocate p).allocate = (some p, s2) := by
  unfold PoolAllocator.allocate at h
  cases hl : s.m_free_list with
  | nil => rw [hl] at h; simp at h
  | cons q rest =>
    rw [hl] at h
    rw [Prod.mk.injEq] at h
    obtain ⟨hq, hs1⟩ := h
    injection hq with hq
    subst hq
    subst hs1
    simp only [PoolAllocator.deallocate, if_neg hp]
    exact ⟨_, rfl⟩

/-- Witness for C6: a pool of three 16-byte slots at address 4096. -/
theorem pool_lifo_reuse_witness :
    ∃ s2, ((((PoolAllocator.mkOwned 4096 16 3 8).allocate).2.deallocate
      4096).allocate) = (some 4096, s2) :=
  pool_lifo_reuse (PoolAllocator.mkOwned 4096 16 3 8) 4096 _ (by decide)
    (by decide)

/-- Both construction branches of the owned pool set `m_chunk_size` to
`align_up(max(chunk_size, sizeof(void*)), alignment)`. -/
theorem PoolAllocator.mkOwned_chunk_size (raw C N A : Nat) :
    (PoolAllocator.mkOwned raw C N A).m_chunk_size = align_up (max C 8) A := by
  unfold PoolAllocator.mkOwned
  by_cases h : 0 < (align_up (max C 8) A * N) % USIZE
  · simp [h]
  · simp [h]

/-- Sixty-four divides the `size_t` modulus. -/
theorem dvd64_USIZE : (64 : Nat) ∣ USIZE := ⟨2 ^ 58, by norm_num [USIZE]⟩

/-- C7: the pool's `chunk_size()` equals
`align_up(max(requested, sizeof(void*)), alignment)` for every requested
chunk size and alignment; with alignment 64 and requested chunk size 10 the
effective slot size is 64, all freelist slots of the fresh pool are
64-aligned, and both `allocate` (whose result is always drawn from the
freelist) and contract-respecting `deallocate` and `reset` keep every
freelist address 64-aligned, so every pointer `allocate()` returns
satisfies `p mod 64 = 0`. -/
theorem pool_effective_slot_size_spec :
    (∀ raw C N A, (PoolAllocator.mkOwned raw C N A).chunk_size
      = align_up (max C 8) A) ∧
    (∀ raw N, (PoolAllocator.mkOwned raw 10 N 64).chunk_size = 64) ∧
    (∀ raw N, raw + 63 < USIZE →
      ∀ p ∈ (PoolAllocator.mkOwned raw 10 N 64).m_free_list, p % 64 = 0) ∧
    (∀ (s : PoolAllocator) (p : Nat) (s' : PoolAllocator),
      (∀ q ∈ s.m_free_list, q % 64 = 0) → s.allocate = (some p, s') →
      p % 64 = 0 ∧ ∀ q ∈ s'.m_free_list, q % 64 = 0) ∧
    (∀ (s : PoolAllocator) (p : Nat), p % 64 = 0 →
      (∀ q ∈ s.m_free_list, q % 64 = 0) →
      ∀ q ∈ (s.deallocate p).m_free_list, q % 64 = 0) ∧
    (∀ s : PoolAllocator, s.m_memory % 64 = 0 → s.m_chunk_size % 64 = 0 →
      (∀ q ∈ s.m_free_list, q % 64 = 0) →
      ∀ q ∈ s.reset.m_free_list, q % 64 = 0) := by
  have hslot : ∀ base cs N, base % 64 = 0 → cs % 64 = 0 →
      ∀ q ∈ PoolAllocator.init_free_list base cs N, q % 64 = 0 := by
    intro base cs N hbase hcs q hq
    unfold PoolAllocator.init_free_list at hq
    obtain ⟨i, hi, rfl⟩ := List.mem_map.mp hq
    obtain ⟨t, rfl⟩ := Nat.dvd_of_mod_eq_zero hcs
    rw [Nat.mod_mod_of_dvd _ dvd64_USIZE, Nat.add_mod, hbase]
    have h2 : i * (64 * t) = 64 * (i * t) := by ring
    rw [h2, Nat.mul_mod_right]
  refine ⟨?_, ?_, ?_, ?_, ?_, ?_⟩
  · intro raw C N A
    exact PoolAllocator.mkOwned_chunk_size raw C N A
  · intro raw N
    show (PoolAllocator.mkOwned raw 10 N 64).m_chunk_size = 64
    rw [PoolAllocator.mkOwned_chunk_size]
    decide
  · intro raw N hraw p hp
    have hS : align_up (max 10 8) 64 = 64 := by decide
    have hbase : align_pointer raw 64 % 64 = 0 := by
      show align_up raw 64 % 64 = 0
      have h64 : (64 : Nat) = 2 ^ 6 := by norm_num
      rw [h64]
      exact (align_up_pow2_facts raw 6 (by norm_num) (by
        have : (2 : Nat) ^ 6 - 1 = 63 := by norm_num
        omega)).1
    unfold PoolAllocator.mkOwned at hp
    by_cases h : 0 < (align_up (max 10 8) 64 * N) % USIZE
    · simp only [h, if_pos] at hp
      exact hslot (align_pointer raw 64) (align_up (max 10 8) 64) N hbase
        (by rw [hS]) p hp
    · simp only [h, if_neg, if_false] at hp
      simp at hp
  · intro s p s' hinv hsucc
    unfold PoolAllocator.allocate at hsucc
    cases hl : s.m_free_list with
    | nil => rw [hl] at hsucc; simp at hsucc
    | cons q rest =>
      rw [hl] at hsucc
      rw [Prod.mk.injEq] at hsucc
      obtain ⟨hq, hs'⟩ := hsucc
      injection hq with hq
      subst hs'
      constructor
      · rw [← hq]
        exact hinv q (by rw [hl]; exact List.mem_cons_self q rest)
      · intro r hr
        exact hinv r (by rw [hl]; exact List.mem_cons_of_mem q hr)
  · intro s p hp hinv q hq
    unfold PoolAllocator.deallocate at hq
    by_cases h0 : p = 0
    · rw [if_pos h0] at hq; exact hinv q hq
    · rw [if_neg h0] at hq
      simp only at hq
      rcases List.mem_cons.mp hq with rfl | hq
      · exact hp
      · exact hinv q hq
  · intro s hmem hcs hinv q hq
    unfold PoolAllocator.reset at hq
    by_cases h : 0 < s.m_chunk_count
    · rw [if_pos h] at hq
      exact hslot _ _ _ hmem hcs q hq
    · rw [if_neg h] at hq
      exact hinv q hq

/-- Witness for C7: the concrete pool with requested chunk size 10,
alignment 64, three slots, buffer at 4096. -/
theorem pool_effective_slot_size_spec_witness :
    (PoolAllocator.mkOwned 4096 10 3 64).chunk_size = 64 ∧
    ∀ p ∈ (PoolAllocator.mkOwned 4096 10 3 64).m_free_list, p % 64 = 0 :=
  ⟨pool_effective_slot_size_spec.2.1 4096 3,
   pool_effective_slot_size_spec.2.2.1 4096 3 (by norm_num [USIZE])⟩

/-!
Free-list heap allocator, from `src/unnamed/part_000` (the
`FreeListAllocator` implementation) and
`src/include/allocx/freelist_allocator.hpp`.

Platform constants (LP64, x86-64 System V ABI): `sizeof(BlockHeader)` with
fields `size_t size; BlockHeader* next; bool is_free; uint8_t padding;` is
24; `MIN_BLOCK_SIZE = sizeof(void*) = 8`; `alignof(std::max_align_t) = 16`.

The backing region is modelled by `blocks`, the address-ordered list of
headers written in memory, tiling the region from `m_memory` (block `i + 1`
starts `HEADER_SIZE + size(i)` bytes after block `i`); a header-field read
at an address succeeds exactly when a header currently lies there (a read
of stale or uninitialized bytes is modelled as not matching any header
pattern, and an operation that would read or write header fields where no
header lies is undefined behaviour, modelled as `none`).  The freelist
threaded through the headers' `next` fields is modelled by `m_free_list`,
the list of addresses visited from the head pointer; split inserts into and
`remove_free_block` deletes from this list exactly where the C++ relinks
the `next` pointers.
-/

def HEADER_SIZE : Nat := 24

def MIN_BLOCK_SIZE : Nat := 8

def MAX_ALIGN_T : Nat := 16

inductive Strategy where
  | FirstFit : Strategy
  | BestFit : Strategy
  | WorstFit : Strategy
deriving Repr, DecidableEq

structure BlockHeader where
  size : Nat
  is_free : Bool
  padding : Nat
deriving Repr, DecidableEq

structure FreeListAllocator where
  m_memory : Nat
  m_size : Nat
  m_used : Nat
  m_strategy : Strategy
  blocks : List BlockHeader
  m_free_list : List Nat
  m_owns_memory : Bool
deriving Repr, DecidableEq

/-- Read the header at address `a`, walking the tiling that starts at
`addr`: returns the header exactly when `a` is the start address of a
current block. -/
def lookupAt : Nat → List BlockHeader → Nat → Option BlockHeader
  | _, [], _ => none
  | addr, b :: bs, a =>
    if a = addr then some b else lookupAt (addr + HEADER_SIZE + b.size) bs a

def FreeListAllocator.lookup (h : FreeListAllocator) (a : Nat) : Option BlockHeader :=
  lookupAt h.m_memory h.blocks a

/-- Rewrite the header fields at address `a` (the rewrite keeps the block's
size, so the tiling addresses are unchanged). -/
def updAt (f : BlockHeader → BlockHeader) : Nat → List BlockHeader → Nat → List BlockHeader
  | _, [], _ => []
  | addr, b :: bs, a =>
    if a = addr then f b :: bs
    else b :: updAt f (addr + HEADER_SIZE + b.size) bs a

/-- `FreeListAllocator::split_block` effect on the headers in memory: the
block at `a` gets size `padding + size` (a `size_t` sum) and a new free
header with the remaining size
`block->size - size - padding - HEADER_SIZE` (chained `size_t`
subtractions) is written right after the shortened block. -/
def splitTiles : Nat → List BlockHeader → Nat → Nat → Nat → List BlockHeader
  | _, [], _, _, _ => []
  | addr, b :: bs, a, size, padding =>
    if a = addr then
      { size := (padding + size) % USIZE, is_free := b.is_free,
        padding := b.padding } ::
      { size := wsub (wsub (wsub b.size size) padding) HEADER_SIZE,
        is_free := true, padding := 0 } :: bs
    else b :: splitTiles (addr + HEADER_SIZE + b.size) bs a size padding

/-- Insert `x` right after the first occurrence of `a` (the C++ writes
`new_block->next = block->next; block->next = new_block;`). -/
def insertAfter : List Nat → Nat → Nat → List Nat
  | [], _, _ => []
  | y :: ys, a, x => if y = a then y :: x :: ys else y :: insertAfter ys a x

/-- `FreeListAllocator::remove_free_block`: unlink the first occurrence. -/
def removeFirst : List Nat → Nat → List Nat
  | [], _ => []
  | y :: ys, a => if y = a then ys else y :: removeFirst ys a

/-- The freelist as the scan of `allocate` sees it: each traversed node
with its header fields. -/
def freeView (h : FreeListAllocator) : List (Nat × BlockHeader) :=
  h.m_free_list.filterMap (fun a => (h.lookup a).map (fun b => (a, b)))

/-- A freelist node satisfies the fit test `current->size >= size + padding`
(`size_t` sum) of the three find functions. -/
def fitsReq (size align : Nat) (p : Nat × BlockHeader) : Bool :=
  decide ((size + calc_padding (p.1 + HEADER_SIZE) align) % USIZE ≤ p.2.size)

/-- `FreeListAllocator::find_first_fit`. -/
def find_first_fit (size align : Nat) (l : List (Nat × BlockHeader)) :
    Option (Nat × BlockHeader) :=
  l.find? (fitsReq size align)

/-- Loop of `FreeListAllocator::find_best_fit`, carrying `best` and
`smallest_suitable`, with the short-circuit `break` on an exact fit. -/
def find_best_fit_aux (size align : Nat) :
    Option (Nat × BlockHeader) → Nat → List (Nat × BlockHeader) →
    Option (Nat × BlockHeader)
  | best, _, [] => best
  | best, smallest, p :: rest =>
    let required := (size + calc_padding (p.1 + HEADER_SIZE) align) % USIZE
    if required ≤ p.2.size ∧ p.2.size < smallest then
      if p.2.size = required then some p
      else find_best_fit_aux size align (some p) p.2.size rest
    else find_best_fit_aux size align best smallest rest

/-- `FreeListAllocator::find_best_fit`: `smallest_suitable` starts at
`numeric_limits<size_t>::max()`. -/
def find_best_fit (size align : Nat) (l : List (Nat × BlockHeader)) :
    Option (Nat × BlockHeader) :=
  find_best_fit_aux size align none (USIZE - 1) l

/-- Loop of `FreeListAllocator::find_worst_fit`, carrying `worst` and
`largest_suitable`. -/
def find_worst_fit_aux (size align : Nat) :
    Option (Nat × BlockHeader) → Nat → List (Nat × BlockHeader) →
    Option (Nat × BlockHeader)
  | worst, _, [] => worst
  | worst, largest, p :: rest =>
    let required := (size + calc_padding (p.1 + HEADER_SIZE) align) % USIZE
    if required ≤ p.2.size ∧ largest < p.2.size then
      find_worst_fit_aux size align (some p) p.2.size rest
    else find_worst_fit_aux size align worst largest rest

/-- `FreeListAllocator::find_worst_fit`: `largest_suitable` starts at 0. -/
def find_worst_fit (size align : Nat) (l : List (Nat × BlockHeader)) :
    Option (Nat × BlockHeader) :=
  find_worst_fit_aux size align none 0 l

/-- Strategy dispatch in `FreeListAllocator::allocate`. -/
def FreeListAllocator.findBlock (h : FreeListAllocator) (size align : Nat) :
    Option (Nat × BlockHeader) :=
  match h.m_strategy with
  | Strategy.FirstFit => find_first_fit size align (freeView h)
  | Strategy.BestFit => find_best_fit size align (freeView h)
  | Strategy.WorstFit => find_worst_fit size align (freeView h)

/-- `FreeListAllocator::allocate(size, alignment)`: find by strategy, split
when the remainder can hold a header plus a minimal block, unlink, mark
used (the padding byte is stored through `static_cast<uint8_t>`, hence
`% 256`), account `HEADER_SIZE + block->size` into `m_used`, and return
`block + HEADER_SIZE + padding`. -/
def FreeListAllocator.allocate (h : FreeListAllocator) (size align : Nat) :
    Option Nat × FreeListAllocator :=
  if size = 0 then (none, h)
  else
    let size := max size MIN_BLOCK_SIZE
    match h.findBlock size align with
    | none => (none, h)
    | some (a, b) =>
      let padding := calc_padding (a + HEADER_SIZE) align
      let total_size := (padding + size) % USIZE
      let doSplit := (total_size + HEADER_SIZE + MIN_BLOCK_SIZE) % USIZE ≤ b.size
      let newAddr := (a + HEADER_SIZE + padding + size) % USIZE
      let blocks1 :=
        if doSplit then splitTiles h.m_memory h.blocks a size padding else h.blocks
      let flist1 :=
        if doSplit then insertAfter h.m_free_list a newAddr else h.m_free_list
      let newSize := if doSplit then total_size else b.size
      ( some ((a + HEADER_SIZE + padding) % USIZE),
        { h with
          blocks := updAt (fun blk =>
              { blk with is_free := false, padding := padding % 256 })
            h.m_memory blocks1 a,
          m_free_list := removeFirst flist1 a,
          m_used := (h.m_used + (HEADER_SIZE + newSize) % USIZE) % USIZE } )

/-- One step of the header-recovery scan of `FreeListAllocator::deallocate`
at offset `HEADER_SIZE + i`: the candidate `data - offset` is accepted when
it is at or above `m_memory`, a header lies there, it is not free, and its
padding byte equals `offset - HEADER_SIZE`. -/
def scanCheck (h : FreeListAllocator) (p i : Nat) : Option Nat :=
  let c := p - (HEADER_SIZE + i)
  match h.lookup c with
  | some b =>
    if h.m_memory ≤ c ∧ b.is_free = false ∧ b.padding = i then some c else none
  | none => none

/-- The scan loop `for offset = HEADER_SIZE .. HEADER_SIZE + 16`. -/
def scanGo (h : FreeListAllocator) (p : Nat) : Nat → Nat → Option Nat
  | _, 0 => none
  | i, fuel + 1 =>
    match scanCheck h p i with
    | some c => some c
    | none => scanGo h p (i + 1) fuel

/-- Header recovery of `FreeListAllocator::deallocate`: the scan, or the
fallback `data - HEADER_SIZE`. -/
def FreeListAllocator.resolve (h : FreeListAllocator) (p : Nat) : Nat :=
  match scanGo h p 0 (MAX_ALIGN_T + 1) with
  | some c => c
  | none => p - HEADER_SIZE

/-- Merge the block at `a` with the block written directly after it
(`current->size += HEADER_SIZE + next->size`). -/
def coalesceTiles : Nat → List BlockHeader → Nat → List BlockHeader
  | _, [], _ => []
  | addr, b :: bs, a =>
    if a = addr then
      match bs with
      | [] => b :: []
      | n :: rest =>
        { b with size := (b.size + HEADER_SIZE + n.size) % USIZE } :: rest
    else b :: coalesceTiles (addr + HEADER_SIZE + b.size) bs a

/-- The `FreeListAllocator::coalesce` walk down the freelist: when the node
`a` ends exactly where the next freelist node `b` starts (`uintptr_t`
comparison), merge and retry from `a`, else advance. -/
def coalesceWalk (base : Nat) : List BlockHeader → List Nat →
    List BlockHeader × List Nat
  | bs, [] => (bs, [])
  | bs, [a] => (bs, [a])
  | bs, a :: b :: rest =>
    match lookupAt base bs a with
    | some blk =>
      if (a + HEADER_SIZE + blk.size) % USIZE = b then
        coalesceWalk base (coalesceTiles base bs a) (a :: rest)
      else
        let r := coalesceWalk base bs (b :: rest)
        (r.1, a :: r.2)
    | none =>
      let r := coalesceWalk base bs (b :: rest)
      (r.1, a :: r.2)
termination_by bs l => l.length

def FreeListAllocator.coalesce (h : FreeListAllocator) : FreeListAllocator :=
  { h with blocks := (coalesceWalk h.m_memory h.blocks h.m_free_list).1,
           m_free_list := (coalesceWalk h.m_memory h.blocks h.m_free_list).2 }

/-- `FreeListAllocator::deallocate(ptr)`: recover the header, subtract
`HEADER_SIZE + block->size` from `m_used` (`size_t` subtraction), mark
free, insert at the freelist head, coalesce.  Returns `none` when the
recovered address carries no header (the C++ would then read and write
header fields of bytes that are not a header: undefined behaviour). -/
def FreeListAllocator.deallocate (h : FreeListAllocator) (p : Nat) :
    Option FreeListAllocator :=
  if p = 0 then some h
  else
    let c := h.resolve p
    match h.lookup c with
    | none => none
    | some b =>
      some (FreeListAllocator.coalesce
        { h with
          m_used := wsub h.m_used ((HEADER_SIZE + b.size) % USIZE),
          blocks := updAt (fun blk => { blk with is_free := true })
            h.m_memory h.blocks c,
          m_free_list := c :: h.m_free_list })

/-- `FreeListAllocator::init`: one free block spanning the region. -/
def FreeListAllocator.init (base size : Nat) (strategy : Strategy)
    (owns : Bool) : FreeListAllocator :=
  { m_memory := base, m_size := size, m_used := 0, m_strategy := strategy,
    blocks := [{ size := size - HEADER_SIZE, is_free := true, padding := 0 }],
    m_free_list := [base], m_owns_memory := owns }

/-- Owned construction `FreeListAllocator(size, strategy)`; `raw` models the
address `operator new` returns; when `size <= HEADER_SIZE` no memory is
acquired and the allocator stays inert with a null base. -/
def FreeListAllocator.mkOwned (raw size : Nat) (strategy : Strategy) :
    FreeListAllocator :=
  if HEADER_SIZE < size then FreeListAllocator.init raw size strategy true
  else
    { m_memory := 0, m_size := size, m_used := 0, m_strategy := strategy,
      blocks := [], m_free_list := [], m_owns_memory := true }

/-- Borrowed construction `FreeListAllocator(buffer, size, strategy)`. -/
def FreeListAllocator.mkBorrowed (buffer size : Nat) (strategy : Strategy) :
    FreeListAllocator :=
  if HEADER_SIZE < size then FreeListAllocator.init buffer size strategy false
  else
    { m_memory := buffer, m_size := size, m_used := 0, m_strategy := strategy,
      blocks := [], m_free_list := [], m_owns_memory := false }

/-- `FreeListAllocator::reset`. -/
def FreeListAllocator.reset (h : FreeListAllocator) : FreeListAllocator :=
  if HEADER_SIZE < h.m_size then
    { h with
      m_used := 0,
      blocks := [{ size := h.m_size - HEADER_SIZE, is_free := true,
                   padding := 0 }],
      m_free_list := [h.m_memory] }
  else h

/-- `FreeListAllocator::total_size`. -/
def FreeListAllocator.total_size (h : FreeListAllocator) : Nat := h.m_size

/-- `FreeListAllocator::used_size`. -/
def FreeListAllocator.used_size (h : FreeListAllocator) : Nat := h.m_used

/-- The state the move constructor and move assignment leave in the
moved-from heap allocator (the strategy field is not reset). -/
def FreeListAllocator.movedFrom (strategy : Strategy) : FreeListAllocator :=
  ⟨0, 0, 0, strategy, [], [], false⟩

/-- Sum of `HEADER_SIZE + size` over all blocks in the region. -/
def tileSum (bs : List BlockHeader) : Nat :=
  (bs.map (fun b => HEADER_SIZE + b.size)).sum

/-- Sum of `HEADER_SIZE + size` over the non-free blocks. -/
def usedSum (bs : List BlockHeader) : Nat :=
  ((bs.filter (fun b => !b.is_free)).map (fun b => HEADER_SIZE + b.size)).sum

/-- Headers lie at or above the start of the tiling. -/
theorem lookupAt_ge {addr : Nat} {bs : List BlockHeader} {a : Nat} {b : BlockHeader}
    (h : lookupAt addr bs a = some b) : addr ≤ a := by
  induction bs generalizing addr with
  | nil => simp [lookupAt] at h
  | cons b0 bs ih =>
    unfold lookupAt at h
    by_cases he : a = addr
    · omega
    · rw [if_neg he] at h
      have := ih h
      omega

/-- A block accounts for at most the whole tiling sum. -/
theorem lookupAt_size_le {addr : Nat} {bs : List BlockHeader} {a : Nat} {b : BlockHeader}
    (h : lookupAt addr bs a = some b) : HEADER_SIZE + b.size ≤ tileSum bs := by
  induction bs generalizing addr with
  | nil => simp [lookupAt] at h
  | cons b0 bs ih =>
    unfold lookupAt at h
    by_cases he : a = addr
    · rw [if_pos he] at h
      injection h with h
      subst h
      simp [tileSum]
    · rw [if_neg he] at h
      have := ih h
      simp only [tileSum, List.map_cons, List.sum_cons] at *
      omega

/-- A block ends within the tiling. -/
theorem lookupAt_end_le {addr : Nat} {bs : List BlockHeader} {a : Nat} {b : BlockHeader}
    (h : lookupAt addr bs a = some b) :
    a + HEADER_SIZE + b.size ≤ addr + tileSum bs := by
  induction bs generalizing addr with
  | nil => simp [lookupAt] at h
  | cons b0 bs ih =>
    unfold lookupAt at h
    by_cases he : a = addr
    · rw [if_pos he] at h
      injection h with h
      subst h
      subst he
      simp [tileSum]
      omega
    · rw [if_neg he] at h
      have := ih h
      simp only [tileSum, List.map_cons, List.sum_cons] at *
      omega

/-- Below the start of the tiling no header lies. -/
theorem lookupAt_lt_none {addr : Nat} {bs : List BlockHeader} {x : Nat}
    (h : x < addr) : lookupAt addr bs x = none := by
  induction bs generalizing addr with
  | nil => rfl
  | cons b0 bs ih =>
    unfold lookupAt
    rw [if_neg (by omega)]
    exact ih (by omega)

/-- No header lies strictly inside a block's span. -/
theorem lookupAt_interior {addr : Nat} {bs : List BlockHeader} {a : Nat}
    {b : BlockHeader} (h : lookupAt addr bs a = some b) (x : Nat)
    (hx1 : a < x) (hx2 : x < a + HEADER_SIZE + b.size) :
    lookupAt addr bs x = none := by
  induction bs generalizing addr with
  | nil => rfl
  | cons b0 bs ih =>
    unfold lookupAt at h
    by_cases he : a = addr
    · rw [if_pos he] at h
      injection h with h
      subst h
      subst he
      unfold lookupAt
      rw [if_neg (by omega)]
      exact lookupAt_lt_none (by omega)
    · rw [if_neg he] at h
      have hge := lookupAt_ge h
      unfold lookupAt
      rw [if_neg (by omega)]
      exact ih h

/-- Two distinct headers do not overlap: the later one starts at or after
the end of the earlier one. -/
theorem lookupAt_gap {addr : Nat} {bs : List BlockHeader} {a x : Nat}
    {b c : BlockHeader} (ha : lookupAt addr bs a = some b)
    (hx : lookupAt addr bs x = some c) (hlt : a < x) :
    a + HEADER_SIZE + b.size ≤ x := by
  by_contra hcon
  rw [lookupAt_interior ha x hlt (by omega)] at hx
  exact Option.noConfusion hx

/-- `updAt` with a size-preserving rewrite keeps the tiling sum. -/
theorem updAt_tileSum (f : BlockHeader → BlockHeader)
    (hf : ∀ blk, (f blk).size = blk.size) (addr : Nat) (bs : List BlockHeader)
    (a : Nat) : tileSum (updAt f addr bs a) = tileSum bs := by
  induction bs generalizing addr with
  | nil => rfl
  | cons b0 bs ih =>
    unfold updAt
    by_cases he : a = addr
    · rw [if_pos he]
      simp [tileSum, hf b0]
    · rw [if_neg he]
      simp only [tileSum, List.map_cons, List.sum_cons] at *
      rw [ih]

/-- Reading back the rewritten header. -/
theorem updAt_lookup_self (f : BlockHeader → BlockHeader)
    (hf : ∀ blk, (f blk).size = blk.size) {addr : Nat} {bs : List BlockHeader}
    {a : Nat} {b : BlockHeader} (h : lookupAt addr bs a = some b) :
    lookupAt addr (updAt f addr bs a) a = some (f b) := by
  induction bs generalizing addr with
  | nil => simp [lookupAt] at h
  | cons b0 bs ih =>
    unfold lookupAt at h
    unfold updAt
    by_cases he : a = addr
    · rw [if_pos he] at h ⊢
      injection h with h
      subst h
      unfold lookupAt
      rw [if_pos he]
    · rw [if_neg he] at h ⊢
      unfold lookupAt
      rw [if_neg he]
      exact ih h

/-- Headers elsewhere are untouched by `updAt`. -/
theorem updAt_lookup_other (f : BlockHeader → BlockHeader)
    (hf : ∀ blk, (f blk).size = blk.size) (addr : Nat) (bs : List BlockHeader)
    (a x : Nat) (hne : x ≠ a) :
    lookupAt addr (updAt f addr bs a) x = lookupAt addr bs x := by
  induction bs generalizing addr with
  | nil => rfl
  | cons b0 bs ih =>
    unfold updAt
    by_cases he : a = addr
    · rw [if_pos he]
      unfold lookupAt
      rw [if_neg (by omega), if_neg (by omega), hf b0]
    · rw [if_neg he]
      unfold lookupAt
      by_cases hx : x = addr
      · rw [if_pos hx, if_pos hx]
      · rw [if_neg hx, if_neg hx]
        exact ih (addr + HEADER_SIZE + b0.size)

/-- Marking a free block used adds its account to the used sum. -/
theorem updAt_usedSum_to_used (f : BlockHeader → BlockHeader)
    (hf : ∀ blk, (f blk).size = blk.size)
    (hff : ∀ blk, (f blk).is_free = false) {addr : Nat} {bs : List BlockHeader}
    {a : Nat} {b : BlockHeader} (h : lookupAt addr bs a = some b)
    (hfree : b.is_free = true) :
    usedSum (updAt f addr bs a) = usedSum bs + (HEADER_SIZE + b.size) := by
  induction bs generalizing addr with
  | nil => simp [lookupAt] at h
  | cons b0 bs ih =>
    unfold lookupAt at h
    unfold updAt
    by_cases he : a = addr
    · rw [if_pos he] at h ⊢
      injection h with h
      subst h
      simp [usedSum, List.filter, hff b0, hf b0, hfree, Nat.add_comm]
    · rw [if_neg he] at h ⊢
      simp only [usedSum, List.filter] at *
      cases hb0 : !b0.is_free <;> simp [hb0, ih h] <;> omega

/-- Marking a used block free removes its account from the used sum. -/
theorem updAt_usedSum_to_free (f : BlockHeader → BlockHeader)
    (hf : ∀ blk, (f blk).size = blk.size)
    (hff : ∀ blk, (f blk).is_free = true) {addr : Nat} {bs : List BlockHeader}
    {a : Nat} {b : BlockHeader} (h : lookupAt addr bs a = some b)
    (hused : b.is_free = false) :
    usedSum bs = usedSum (updAt f addr bs a) + (HEADER_SIZE + b.size) := by
  induction bs generalizing addr with
  | nil => simp [lookupAt] at h
  | cons b0 bs ih =>
    unfold lookupAt at h
    unfold updAt
    by_cases he : a = addr
    · rw [if_pos he] at h ⊢
      injection h with h
      subst h
      simp [usedSum, List.filter, hff b0, hused, Nat.add_comm]
    · rw [if_neg he] at h ⊢
      simp only [usedSum, List.filter] at *
      cases hb0 : !b0.is_free <;> simp [hb0, ih h] <;> omega

/-- Splitting preserves the tiling sum: the shortened block and the new
free block together account for exactly the original block. -/
theorem splitTiles_tileSum {addr : Nat} {bs : List BlockHeader} {a : Nat}
    {b : BlockHeader} (size padding : Nat) (hb : lookupAt addr bs a = some b)
    (hTR : (padding + size) % USIZE + HEADER_SIZE +
      wsub (wsub (wsub b.size size) padding) HEADER_SIZE = b.size) :
    tileSum (splitTiles addr bs a size padding) = tileSum bs := by
  induction bs generalizing addr with
  | nil => rfl
  | cons b0 bs ih =>
    unfold lookupAt at hb
    unfold splitTiles
    by_cases he : a = addr
    · rw [if_pos he] at hb
      rw [if_pos he]
      have hbb : b0 = b := Option.some.inj hb
      subst hbb
      simp only [tileSum, List.map_cons, List.sum_cons]
      omega
    · rw [if_neg he] at hb
      rw [if_neg he]
      simp only [tileSum, List.map_cons, List.sum_cons]
      rw [show ((List.map (fun b => HEADER_SIZE + b.size)
        (splitTiles (addr + HEADER_SIZE + b0.size) bs a size padding)).sum)
        = tileSum (splitTiles (addr + HEADER_SIZE + b0.size) bs a size padding)
        from rfl, ih hb]
      rfl

/-- Splitting a free block leaves the used sum unchanged: both parts are
free. -/
theorem splitTiles_usedSum {addr : Nat} {bs : List BlockHeader} {a : Nat}
    {b : BlockHeader} (size padding : Nat) (hb : lookupAt addr bs a = some b)
    (hfree : b.is_free = true) :
    usedSum (splitTiles addr bs a size padding) = usedSum bs := by
  induction bs generalizing addr with
  | nil => rfl
  | cons b0 bs ih =>
    unfold lookupAt at hb
    unfold splitTiles
    by_cases he : a = addr
    · rw [if_pos he] at hb ⊢
      injection hb with hb
      subst hb
      simp [usedSum, List.filter, hfree]
    · rw [if_neg he] at hb ⊢
      simp only [usedSum, List.filter] at *
      cases hb0 : !b0.is_free <;> simp [hb0, ih hb]

/-- The shortened block after a split. -/
theorem splitTiles_lookup_self {addr : Nat} {bs : List BlockHeader} {a : Nat}
    {b : BlockHeader} (size padding : Nat) (hb : lookupAt addr bs a = some b) :
    lookupAt addr (splitTiles addr bs a size padding) a =
      some ⟨(padding + size) % USIZE, b.is_free, b.padding⟩ := by
  induction bs generalizing addr with
  | nil => simp [lookupAt] at hb
  | cons b0 bs ih =>
    unfold lookupAt at hb
    unfold splitTiles
    by_cases he : a = addr
    · rw [if_pos he] at hb ⊢
      injection hb with hb
      subst hb
      unfold lookupAt
      rw [if_pos he]
    · rw [if_neg he] at hb ⊢
      unfold lookupAt
      rw [if_neg he]
      exact ih hb

/-- The residual free block created by a split, read back at its address. -/
theorem splitTiles_lookup_new {addr : Nat} {bs : List BlockHeader} {a : Nat}
    {b : BlockHeader} (size padding : Nat) (hb : lookupAt addr bs a = some b) :
    lookupAt addr (splitTiles addr bs a size padding)
      (a + HEADER_SIZE + (padding + size) % USIZE) =
      some ⟨wsub (wsub (wsub b.size size) padding) HEADER_SIZE, true, 0⟩ := by
  have hH : HEADER_SIZE = 24 := rfl
  induction bs generalizing addr with
  | nil => simp [lookupAt] at hb
  | cons b0 bs ih =>
    unfold lookupAt at hb
    unfold splitTiles
    by_cases he : a = addr
    · rw [if_pos he] at hb
      rw [if_pos he]
      injection hb with hb
      subst hb
      subst he
      simp only [lookupAt]
      rw [if_neg (by omega)]
      simp
    · rw [if_neg he] at hb
      rw [if_neg he]
      have hge := lookupAt_ge hb
      simp only [lookupAt]
      rw [if_neg (by omega)]
      exact ih hb

/-- Headers other than the split block and its residual are unchanged by a
split. -/
theorem splitTiles_lookup_other {addr : Nat} {bs : List BlockHeader} {a : Nat}
    {b : BlockHeader} (size padding : Nat) (hb : lookupAt addr bs a = some b)
    (hTR : (padding + size) % USIZE + HEADER_SIZE +
      wsub (wsub (wsub b.size size) padding) HEADER_SIZE = b.size)
    (x : Nat) (hx1 : x ≠ a)
    (hx2 : x ≠ a + HEADER_SIZE + (padding + size) % USIZE) :
    lookupAt addr (splitTiles addr bs a size padding) x =
      lookupAt addr bs x := by
  induction bs generalizing addr with
  | nil => rfl
  | cons b0 bs ih =>
    unfold lookupAt at hb
    unfold splitTiles
    by_cases he : a = addr
    · rw [if_pos he] at hb
      rw [if_pos he]
      have hbb : b0 = b := Option.some.inj hb
      subst hbb
      subst he
      simp only [lookupAt]
      rw [if_neg hx1, if_neg hx1, if_neg hx2]
      have harr : a + HEADER_SIZE + (padding + size) % USIZE + HEADER_SIZE +
          wsub (wsub (wsub b0.size size) padding) HEADER_SIZE
          = a + HEADER_SIZE + b0.size := by omega
      rw [harr]
    · rw [if_neg he] at hb
      rw [if_neg he]
      simp only [lookupAt]
      by_cases hx : x = addr
      · rw [if_pos hx, if_pos hx]
      · rw [if_neg hx, if_neg hx]
        exact ih hb

/-- Splicing the residual block in after the first occurrence of the split
block. -/
theorem insertAfter_eq (l1 l2 : List Nat) (a x : Nat) (ha : a ∉ l1) :
    insertAfter (l1 ++ a :: l2) a x = l1 ++ a :: x :: l2 := by
  induction l1 with
  | nil => simp [insertAfter]
  | cons y ys ih =>
    have hy : y ≠ a := by intro hcon; exact ha (hcon ▸ List.mem_cons_self y ys)
    simp only [List.cons_append, insertAfter, if_neg hy, List.append_eq]
    rw [ih (fun hmem => ha (List.mem_cons_of_mem y hmem))]

/-- Unlinking the first occurrence. -/
theorem removeFirst_eq (l1 l2 : List Nat) (a : Nat) (ha : a ∉ l1) :
    removeFirst (l1 ++ a :: l2) a = l1 ++ l2 := by
  induction l1 with
  | nil => simp [removeFirst]
  | cons y ys ih =>
    have hy : y ≠ a := by intro hcon; exact ha (hcon ▸ List.mem_cons_self y ys)
    simp only [List.cons_append, removeFirst, if_neg hy, List.append_eq]
    rw [ih (fun hmem => ha (List.mem_cons_of_mem y hmem))]

/-- Members after an `insertAfter` come from the old list or are the new
element. -/
theorem mem_insertAfter {l : List Nat} {a x y : Nat}
    (h : y ∈ insertAfter l a x) : y ∈ l ∨ y = x := by
  induction l with
  | nil => simp [insertAfter] at h
  | cons z zs ih =>
    unfold insertAfter at h
    by_cases hz : z = a
    · rw [if_pos hz] at h
      rcases List.mem_cons.mp h with rfl | h
      · exact Or.inl (List.mem_cons_self y zs)
      · rcases List.mem_cons.mp h with rfl | h
        · exact Or.inr rfl
        · exact Or.inl (List.mem_cons_of_mem z h)
    · rw [if_neg hz] at h
      rcases List.mem_cons.mp h with rfl | h
      · exact Or.inl (List.mem_cons_self y zs)
      · rcases ih h with h | h
        · exact Or.inl (List.mem_cons_of_mem z h)
        · exact Or.inr h

/-- `insertAfter` keeps the list duplicate-free when the new element is
fresh. -/
theorem insertAfter_nodup {l : List Nat} {a x : Nat} (hl : l.Nodup)
    (hx : x ∉ l) : (insertAfter l a x).Nodup := by
  induction l with
  | nil => simp [insertAfter]
  | cons z zs ih =>
    rw [List.nodup_cons] at hl
    unfold insertAfter
    by_cases hz : z = a
    · rw [if_pos hz]
      refine List.nodup_cons.mpr ⟨?_, List.nodup_cons.mpr ⟨?_, hl.2⟩⟩
      · intro hcon
        rcases List.mem_cons.mp hcon with rfl | hcon
        · exact hx (List.mem_cons_self z zs)
        · exact hl.1 hcon
      · intro hcon
        exact hx (List.mem_cons_of_mem z hcon)
    · rw [if_neg hz]
      refine List.nodup_cons.mpr ⟨?_, ih hl.2 (fun hc => hx (List.mem_cons_of_mem z hc))⟩
      intro hcon
      rcases mem_insertAfter hcon with hcon | rfl
      · exact hl.1 hcon
      · exact hx (List.mem_cons_self z zs)

/-- Members survive `removeFirst`. -/
theorem mem_removeFirst {l : List Nat} {a y : Nat} (h : y ∈ removeFirst l a) :
    y ∈ l := by
  induction l with
  | nil => simp [removeFirst] at h
  | cons z zs ih =>
    unfold removeFirst at h
    by_cases hz : z = a
    · rw [if_pos hz] at h
      exact List.mem_cons_of_mem z h
    · rw [if_neg hz] at h
      rcases List.mem_cons.mp h with rfl | h
      · exact List.mem_cons_self y zs
      · exact List.mem_cons_of_mem z (ih h)

/-- `removeFirst` keeps the list duplicate-free. -/
theorem removeFirst_nodup {l : List Nat} {a : Nat} (hl : l.Nodup) :
    (removeFirst l a).Nodup := by
  induction l with
  | nil => simp [removeFirst]
  | cons z zs ih =>
    rw [List.nodup_cons] at hl
    unfold removeFirst
    by_cases hz : z = a
    · rw [if_pos hz]; exact hl.2
    · rw [if_neg hz]
      exact List.nodup_cons.mpr
        ⟨fun hc => hl.1 (mem_removeFirst hc), ih hl.2⟩

/-- In a duplicate-free list, everything left by `removeFirst a` differs
from `a`. -/
theorem mem_removeFirst_ne {l : List Nat} {a y : Nat} (hl : l.Nodup)
    (h : y ∈ removeFirst l a) : y ≠ a := by
  induction l with
  | nil => simp [removeFirst] at h
  | cons z zs ih =>
    rw [List.nodup_cons] at hl
    unfold removeFirst at h
    by_cases hz : z = a
    · rw [if_pos hz] at h
      intro rfl2
      subst rfl2
      exact hl.1 (hz ▸ h)
    · rw [if_neg hz] at h
      rcases List.mem_cons.mp h with rfl | h
      · exact hz
      · exact ih hl.2 h

/-- Exact value of a wrapping `size_t` subtraction that does not wrap. -/
theorem wsub_exact {x y : Nat} (hyx : y ≤ x) (hx : x < USIZE) :
    wsub x y = x - y := by
  unfold wsub USIZE at *
  omega

/-- The chained `size_t` subtractions of `split_block` compute the exact
remaining payload when the split guard holds. -/
theorem split_remaining {bsize size padding : Nat}
    (hg : (padding + size) % USIZE + HEADER_SIZE + MIN_BLOCK_SIZE ≤ bsize)
    (hb : bsize < USIZE) :
    wsub (wsub (wsub bsize size) padding) HEADER_SIZE
      = bsize - (padding + size) % USIZE - HEADER_SIZE := by
  have hH : HEADER_SIZE = 24 := rfl
  have hM : MIN_BLOCK_SIZE = 8 := rfl
  unfold wsub USIZE at *
  omega

/-- A view node produced by `freeView` is a freelist node whose header was
read successfully. -/
theorem freeView_mem {h : FreeListAllocator} {a : Nat} {b : BlockHeader}
    (hm : (a, b) ∈ freeView h) :
    a ∈ h.m_free_list ∧ h.lookup a = some b := by
  unfold freeView at hm
  obtain ⟨x, hx, hfx⟩ := List.mem_filterMap.mp hm
  cases hlx : h.lookup x with
  | none => rw [hlx] at hfx; simp at hfx
  | some c =>
    rw [hlx] at hfx
    rw [Option.map_some'] at hfx
    have hp := Option.some.inj hfx
    rw [Prod.mk.injEq] at hp
    obtain ⟨hxa, hcb⟩ := hp
    subst hxa
    subst hcb
    exact ⟨hx, hlx⟩

/-- `find_first_fit` returns a fitting node of the list. -/
theorem find_first_fit_spec {size align : Nat} {l : List (Nat × BlockHeader)}
    {p : Nat × BlockHeader} (h : find_first_fit size align l = some p) :
    p ∈ l ∧ fitsReq size align p = true :=
  ⟨List.mem_of_find?_eq_some h, List.find?_some h⟩

/-- The best-fit loop returns either its running best or a fitting node of
the remaining list. -/
theorem find_best_fit_aux_mem {size align : Nat} :
    ∀ (l : List (Nat × BlockHeader)) (best : Option (Nat × BlockHeader))
      (smallest : Nat) (p : Nat × BlockHeader),
      find_best_fit_aux size align best smallest l = some p →
      (p ∈ l ∧ fitsReq size align p = true) ∨ best = some p := by
  intro l
  induction l with
  | nil =>
    intro best smallest p h
    exact Or.inr h
  | cons q rest ih =>
    intro best smallest p h
    unfold find_best_fit_aux at h
    by_cases hc : (size + calc_padding (q.1 + HEADER_SIZE) align) % USIZE ≤ q.2.size
      ∧ q.2.size < smallest
    · rw [if_pos hc] at h
      by_cases hex : q.2.size = (size + calc_padding (q.1 + HEADER_SIZE) align) % USIZE
      · rw [if_pos hex] at h
        have hq : q = p := Option.some.inj h
        subst hq
        exact Or.inl ⟨List.mem_cons_self q rest, by simp [fitsReq, hc.1]⟩
      · rw [if_neg hex] at h
        rcases ih (some q) q.2.size p h with ⟨hm, hf⟩ | hb
        · exact Or.inl ⟨List.mem_cons_of_mem q hm, hf⟩
        · have hq : q = p := Option.some.inj hb
          subst hq
          exact Or.inl ⟨List.mem_cons_self q rest, by simp [fitsReq, hc.1]⟩
    · rw [if_neg hc] at h
      rcases ih best smallest p h with ⟨hm, hf⟩ | hb
      · exact Or.inl ⟨List.mem_cons_of_mem q hm, hf⟩
      · exact Or.inr hb

/-- The worst-fit loop returns either its running worst or a fitting node
of the remaining list. -/
theorem find_worst_fit_aux_mem {size align : Nat} :
    ∀ (l : List (Nat × BlockHeader)) (worst : Option (Nat × BlockHeader))
      (largest : Nat) (p : Nat × BlockHeader),
      find_worst_fit_aux size align worst largest l = some p →
      (p ∈ l ∧ fitsReq size align p = true) ∨ worst = some p := by
  intro l
  induction l with
  | nil =>
    intro worst largest p h
    exact Or.inr h
  | cons q rest ih =>
    intro worst largest p h
    unfold find_worst_fit_aux at h
    by_cases hc : (size + calc_padding (q.1 + HEADER_SIZE) align) % USIZE ≤ q.2.size
      ∧ largest < q.2.size
    · rw [if_pos hc] at h
      rcases ih (some q) q.2.size p h with ⟨hm, hf⟩ | hb
      · exact Or.inl ⟨List.mem_cons_of_mem q hm, hf⟩
      · have hq : q = p := Option.some.inj hb
        subst hq
        exact Or.inl ⟨List.mem_cons_self q rest, by simp [fitsReq, hc.1]⟩
    · rw [if_neg hc] at h
      rcases ih worst largest p h with ⟨hm, hf⟩ | hb
      · exact Or.inl ⟨List.mem_cons_of_mem q hm, hf⟩
      · exact Or.inr hb

/-- Whatever the strategy, the chosen block is a freelist node whose header
was read and which passes the fit test. -/
theorem findBlock_spec {h : FreeListAllocator} {size align a : Nat}
    {b : BlockHeader} (hf : h.findBlock size align = some (a, b)) :
    a ∈ h.m_free_list ∧ h.lookup a = some b ∧
    (size + calc_padding (a + HEADER_SIZE) align) % USIZE ≤ b.size := by
  unfold FreeListAllocator.findBlock at hf
  have hcore : (a, b) ∈ freeView h ∧ fitsReq size align (a, b) = true := by
    cases hs : h.m_strategy with
    | FirstFit =>
      rw [hs] at hf
      exact find_first_fit_spec hf
    | BestFit =>
      rw [hs] at hf
      rcases find_best_fit_aux_mem (freeView h) none (USIZE - 1) (a, b) hf with
        hres | hres
      · exact hres
      · exact absurd hres (by simp)
    | WorstFit =>
      rw [hs] at hf
      rcases find_worst_fit_aux_mem (freeView h) none 0 (a, b) hf with hres | hres
      · exact hres
      · exact absurd hres (by simp)
  obtain ⟨hmem, hfits⟩ := hcore
  obtain ⟨hlist, hlook⟩ := freeView_mem hmem
  refine ⟨hlist, hlook, ?_⟩
  simpa [fitsReq] using hfits

/-- Well-formedness carried through every heap operation: the region
bounds, the tiling account H1, the used-bytes account H5, and a sound
freelist (duplicate-free, every node a free block's header). -/
def HeapWF (h : FreeListAllocator) : Prop :=
  h.m_memory + h.m_size ≤ 2 ^ 62 ∧
  tileSum h.blocks = h.m_size ∧
  h.m_used = usedSum h.blocks ∧
  h.m_free_list.Nodup ∧
  ∀ a ∈ h.m_free_list, ∃ b, h.lookup a = some b ∧ b.is_free = true

/-- Unfolding of a successful `allocate` that splits. -/
theorem FreeListAllocator.allocate_eq_split (h : FreeListAllocator)
    (size align : Nat) (hsz : size ≠ 0) {a : Nat} {b : BlockHeader}
    (hfind : h.findBlock (max size MIN_BLOCK_SIZE) align = some (a, b))
    (hgd : ((calc_padding (a + HEADER_SIZE) align + max size MIN_BLOCK_SIZE) % USIZE
      + HEADER_SIZE + MIN_BLOCK_SIZE) % USIZE ≤ b.size) :
    h.allocate size align =
      (some ((a + HEADER_SIZE + calc_padding (a + HEADER_SIZE) align) % USIZE),
       { h with
         blocks := updAt (fun blk =>
             { blk with
               is_free := false,
               padding := calc_padding (a + HEADER_SIZE) align % 256 }) h.m_memory
           (splitTiles h.m_memory h.blocks a (max size MIN_BLOCK_SIZE)
             (calc_padding (a + HEADER_SIZE) align)) a,
         m_free_list := removeFirst (insertAfter h.m_free_list a
           ((a + HEADER_SIZE + calc_padding (a + HEADER_SIZE) align
             + max size MIN_BLOCK_SIZE) % USIZE)) a,
         m_used := (h.m_used + (HEADER_SIZE +
           (calc_padding (a + HEADER_SIZE) align + max size MIN_BLOCK_SIZE) % USIZE)
             % USIZE) % USIZE }) := by
  unfold FreeListAllocator.allocate
  rw [if_neg hsz]
  simp only [hfind]
  simp only [if_pos hgd]

/-- Unfolding of a successful `allocate` that does not split. -/
theorem FreeListAllocator.allocate_eq_nosplit (h : FreeListAllocator)
    (size align : Nat) (hsz : size ≠ 0) {a : Nat} {b : BlockHeader}
    (hfind : h.findBlock (max size MIN_BLOCK_SIZE) align = some (a, b))
    (hgd : ¬ ((calc_padding (a + HEADER_SIZE) align + max size MIN_BLOCK_SIZE) % USIZE
      + HEADER_SIZE + MIN_BLOCK_SIZE) % USIZE ≤ b.size) :
    h.allocate size align =
      (some ((a + HEADER_SIZE + calc_padding (a + HEADER_SIZE) align) % USIZE),
       { h with
         blocks := updAt (fun blk =>
             { blk with
               is_free := false,
               padding := calc_padding (a + HEADER_SIZE) align % 256 }) h.m_memory
           h.blocks a,
         m_free_list := removeFirst h.m_free_list a,
         m_used := (h.m_used + (HEADER_SIZE + b.size) % USIZE) % USIZE }) := by
  unfold FreeListAllocator.allocate
  rw [if_neg hsz]
  simp only [hfind]
  simp only [if_neg hgd]

/-- A failed or zero-size `allocate` leaves the state unchanged. -/
theorem FreeListAllocator.allocate_none_unchanged (h : FreeListAllocator)
    (size align : Nat)
    (hcase : size = 0 ∨ h.findBlock (max size MIN_BLOCK_SIZE) align = none) :
    h.allocate size align = (none, h) := by
  unfold FreeListAllocator.allocate
  rcases hcase with hsz | hfind
  · rw [if_pos hsz]
  · by_cases hsz : size = 0
    · rw [if_pos hsz]
    · rw [if_neg hsz]
      simp only [hfind]

/-- Numeric value of the `size_t` modulus. -/
theorem USIZE_eq : USIZE = 18446744073709551616 := by norm_num [USIZE]

/-- Numeric value of the bound `2 ^ 62` used in the invariants. -/
theorem two62_eq : (2 : Nat) ^ 62 = 4611686018427387904 := by norm_num


/-- The used-bytes account never exceeds the tiling account. -/
theorem usedSum_le_tileSum (bs : List BlockHeader) : usedSum bs ≤ tileSum bs := by
  induction bs with
  | nil => simp [usedSum, tileSum]
  | cons b bs ih =>
    simp only [usedSum, tileSum, List.filter_cons, List.map_cons,
      List.sum_cons] at ih ⊢
    by_cases hb : (!b.is_free) = true
    · rw [if_pos hb]
      simp only [List.map_cons, List.sum_cons]
      omega
    · rw [if_neg hb]
      omega

/-- `allocate` preserves the heap invariants, for every request size and
alignment, splitting or not, succeeding or failing. -/
theorem heap_allocate_WF (h : FreeListAllocator) (size align : Nat)
    (hwf : HeapWF h) :
    HeapWF (h.allocate size align).2 ∧
    (h.allocate size align).2.m_memory = h.m_memory ∧
    (h.allocate size align).2.m_size = h.m_size := by
  obtain ⟨hbound, hH1, hH5, hnodup, hfreeAll⟩ := hwf
  by_cases hsz : size = 0
  · rw [FreeListAllocator.allocate_none_unchanged h size align (Or.inl hsz)]
    exact ⟨⟨hbound, hH1, hH5, hnodup, hfreeAll⟩, rfl, rfl⟩
  cases hfind : h.findBlock (max size MIN_BLOCK_SIZE) align with
  | none =>
    rw [FreeListAllocator.allocate_none_unchanged h size align (Or.inr hfind)]
    exact ⟨⟨hbound, hH1, hH5, hnodup, hfreeAll⟩, rfl, rfl⟩
  | some ab =>
    obtain ⟨a, b⟩ := ab
    obtain ⟨hmemL, hlook, hfit⟩ := findBlock_spec hfind
    obtain ⟨b', hlook', hfree'⟩ := hfreeAll a hmemL
    rw [hlook] at hlook'
    have hbeq : b = b' := Option.some.inj hlook'
    have hbfree : b.is_free = true := by rw [hbeq]; exact hfree'
    have hU : USIZE = 18446744073709551616 := USIZE_eq
    have h62 : (2 : Nat) ^ 62 = 4611686018427387904 := two62_eq
    have hH : HEADER_SIZE = 24 := rfl
    have hM : MIN_BLOCK_SIZE = 8 := rfl
    set sz' := max size MIN_BLOCK_SIZE with hszdef
    set pad := calc_padding (a + HEADER_SIZE) align with hpaddef
    set T := (pad + sz') % USIZE with hTdef
    have hTfit : T ≤ b.size := by rw [hTdef, Nat.add_comm]; exact hfit
    have hbsz : HEADER_SIZE + b.size ≤ h.m_size := hH1 ▸ lookupAt_size_le hlook
    have hmsize : h.m_size ≤ 2 ^ 62 := by omega
    have hendle : a + HEADER_SIZE + b.size ≤ h.m_memory + h.m_size := by
      have := lookupAt_end_le hlook
      rw [hH1] at this
      exact this
    have hmemge : h.m_memory ≤ a := lookupAt_ge hlook
    have hused62 : h.m_used ≤ 2 ^ 62 := by
      rw [hH5]
      calc usedSum h.blocks ≤ tileSum h.blocks := usedSum_le_tileSum h.blocks
        _ = h.m_size := hH1
        _ ≤ 2 ^ 62 := hmsize
    by_cases hgd : (T + HEADER_SIZE + MIN_BLOCK_SIZE) % USIZE ≤ b.size
    · -- split case
      rw [h.allocate_eq_split size align hsz hfind hgd]
      have hgd' : T + HEADER_SIZE + MIN_BLOCK_SIZE ≤ b.size := by
        rw [Nat.mod_eq_of_lt (by omega)] at hgd
        exact hgd
      have hRval : wsub (wsub (wsub b.size sz') pad) HEADER_SIZE
          = b.size - T - HEADER_SIZE :=
        split_remaining hgd' (by omega)
      have hTR : T + HEADER_SIZE
          + wsub (wsub (wsub b.size sz') pad) HEADER_SIZE = b.size := by
        rw [hRval]
        omega
      have hsplit_sum := splitTiles_tileSum sz' pad hlook hTR
      have hsplit_used := splitTiles_usedSum sz' pad hlook hbfree
      have hself := splitTiles_lookup_self sz' pad hlook
      have hnew := splitTiles_lookup_new sz' pad hlook
      have hTlt : T < b.size := by omega
      have hint : lookupAt h.m_memory h.blocks (a + HEADER_SIZE + T) = none :=
        lookupAt_interior hlook _ (by omega) (by omega)
      have hnotmem : (a + HEADER_SIZE + T) ∉ h.m_free_list := by
        intro hcon
        obtain ⟨c, hc, _⟩ := hfreeAll _ hcon
        rw [show h.lookup (a + HEADER_SIZE + T)
          = lookupAt h.m_memory h.blocks (a + HEADER_SIZE + T) from rfl, hint] at hc
        exact Option.noConfusion hc
      have hnewAddr : (a + HEADER_SIZE + pad + sz') % USIZE = a + HEADER_SIZE + T := by
        rw [Nat.add_assoc (a + HEADER_SIZE) pad sz',
          ← add_mod_right_mod (a + HEADER_SIZE) (pad + sz') USIZE, ← hTdef]
        exact Nat.mod_eq_of_lt (by omega)
      rw [hnewAddr]
      have hfl1nodup : (insertAfter h.m_free_list a (a + HEADER_SIZE + T)).Nodup :=
        insertAfter_nodup hnodup hnotmem
      have hupd_used := updAt_usedSum_to_used
        (fun blk => { blk with is_free := false, padding := pad % 256 })
        (fun _ => rfl) (fun _ => rfl) hself hbfree
      refine ⟨⟨hbound, ?_, ?_, removeFirst_nodup hfl1nodup, ?_⟩, rfl, rfl⟩
      · rw [updAt_tileSum
          (fun blk => { blk with is_free := false, padding := pad % 256 })
          (fun _ => rfl), hsplit_sum, hH1]
      · rw [hupd_used, hsplit_used]
        have hlit : ({ size := T, is_free := b.is_free, padding := b.padding }
            : BlockHeader).size = T := rfl
        rw [hlit, ← hH5,
          Nat.mod_eq_of_lt (show HEADER_SIZE + T < USIZE by omega),
          Nat.mod_eq_of_lt (show h.m_used + (HEADER_SIZE + T) < USIZE by omega)]
      · intro x hx
        have hx1 : x ∈ insertAfter h.m_free_list a (a + HEADER_SIZE + T) :=
          mem_removeFirst hx
        have hxne : x ≠ a := mem_removeFirst_ne hfl1nodup hx
        rcases mem_insertAfter hx1 with hxold | hxnew
        · have hxne2 : x ≠ a + HEADER_SIZE + T := fun hc => hnotmem (hc ▸ hxold)
          obtain ⟨c, hc, hcf⟩ := hfreeAll x hxold
          refine ⟨c, ?_, hcf⟩
          show lookupAt h.m_memory (updAt
            (fun blk => { blk with is_free := false, padding := pad % 256 })
            h.m_memory (splitTiles h.m_memory h.blocks a sz' pad) a) x = some c
          rw [updAt_lookup_other
            (fun blk => { blk with is_free := false, padding := pad % 256 })
            (fun _ => rfl) h.m_memory _ a x hxne]
          rw [splitTiles_lookup_other sz' pad hlook hTR x hxne hxne2]
          exact hc
        · refine ⟨⟨wsub (wsub (wsub b.size sz') pad) HEADER_SIZE, true, 0⟩, ?_, rfl⟩
          show lookupAt h.m_memory (updAt
            (fun blk => { blk with is_free := false, padding := pad % 256 })
            h.m_memory (splitTiles h.m_memory h.blocks a sz' pad) a) x = _
          rw [updAt_lookup_other
            (fun blk => { blk with is_free := false, padding := pad % 256 })
            (fun _ => rfl) h.m_memory _ a x hxne, hxnew]
          exact hnew
    · -- no-split case
      rw [h.allocate_eq_nosplit size align hsz hfind hgd]
      have hupd_used := updAt_usedSum_to_used
        (fun blk => { blk with is_free := false, padding := pad % 256 })
        (fun _ => rfl) (fun _ => rfl) hlook hbfree
      refine ⟨⟨hbound, ?_, ?_, removeFirst_nodup hnodup, ?_⟩, rfl, rfl⟩
      · rw [updAt_tileSum
          (fun blk => { blk with is_free := false, padding := pad % 256 })
          (fun _ => rfl), hH1]
      · rw [hupd_used, ← hH5,
          Nat.mod_eq_of_lt (show HEADER_SIZE + b.size < USIZE by omega),
          Nat.mod_eq_of_lt (show h.m_used + (HEADER_SIZE + b.size) < USIZE by omega)]
      · intro x hx
        have hx1 : x ∈ h.m_free_list := mem_removeFirst hx
        have hxne : x ≠ a := mem_removeFirst_ne hnodup hx
        obtain ⟨c, hc, hcf⟩ := hfreeAll x hx1
        refine ⟨c, ?_, hcf⟩
        show lookupAt h.m_memory (updAt
          (fun blk => { blk with is_free := false, padding := pad % 256 })
          h.m_memory h.blocks a) x = some c
        rw [updAt_lookup_other
          (fun blk => { blk with is_free := false, padding := pad % 256 })
          (fun _ => rfl) h.m_memory h.blocks a x hxne]
        exact hc

/-- A used block accounts into the used sum. -/
theorem lookupAt_used_le_usedSum {addr : Nat} {bs : List BlockHeader} {a : Nat}
    {b : BlockHeader} (h : lookupAt addr bs a = some b)
    (hused : b.is_free = false) : HEADER_SIZE + b.size ≤ usedSum bs := by
  induction bs generalizing addr with
  | nil => simp [lookupAt] at h
  | cons b0 bs ih =>
    unfold lookupAt at h
    by_cases he : a = addr
    · rw [if_pos he] at h
      have hbb : b0 = b := Option.some.inj h
      subst hbb
      simp [usedSum, List.filter_cons, hused]
    · rw [if_neg he] at h
      have := ih h
      simp only [usedSum, List.filter_cons] at *
      by_cases hb0 : (!b0.is_free) = true
      · rw [if_pos hb0]
        simp only [List.map_cons, List.sum_cons]
        omega
      · rw [if_neg hb0]
        omega

/-- The merge of `coalesce` preserves the tiling sum. -/
theorem ct_tileSum {addr : Nat} {bs : List BlockHeader} {a : Nat}
    {blk nb : BlockHeader} (hba : lookupAt addr bs a = some blk)
    (hbn : lookupAt addr bs (a + HEADER_SIZE + blk.size) = some nb)
    (hstrip : blk.size + HEADER_SIZE + nb.size < USIZE) :
    tileSum (coalesceTiles addr bs a) = tileSum bs := by
  induction bs generalizing addr with
  | nil => rfl
  | cons b0 bs ih =>
    unfold lookupAt at hba
    unfold coalesceTiles
    by_cases he : a = addr
    · rw [if_pos he] at hba
      rw [if_pos he]
      have hbb : b0 = blk := Option.some.inj hba
      subst hbb
      subst he
      unfold lookupAt at hbn
      rw [if_neg (by have hH : HEADER_SIZE = 24 := rfl; omega)] at hbn
      cases bs with
      | nil => simp [lookupAt] at hbn
      | cons n rest =>
        unfold lookupAt at hbn
        rw [if_pos rfl] at hbn
        have hnn : n = nb := Option.some.inj hbn
        subst hnn
        simp only [tileSum, List.map_cons, List.sum_cons]
        rw [Nat.mod_eq_of_lt hstrip]
        omega
    · rw [if_neg he] at hba
      rw [if_neg he]
      unfold lookupAt at hbn
      have hge := lookupAt_ge hba
      rw [if_neg (by have hH : HEADER_SIZE = 24 := rfl; omega)] at hbn
      simp only [tileSum, List.map_cons, List.sum_cons]
      have := ih hba hbn
      simp only [tileSum] at this
      omega

/-- The merge of two free blocks preserves the used sum. -/
theorem ct_usedSum {addr : Nat} {bs : List BlockHeader} {a : Nat}
    {blk nb : BlockHeader} (hba : lookupAt addr bs a = some blk)
    (hbn : lookupAt addr bs (a + HEADER_SIZE + blk.size) = some nb)
    (hfa : blk.is_free = true) (hfn : nb.is_free = true) :
    usedSum (coalesceTiles addr bs a) = usedSum bs := by
  induction bs generalizing addr with
  | nil => rfl
  | cons b0 bs ih =>
    unfold lookupAt at hba
    unfold coalesceTiles
    by_cases he : a = addr
    · rw [if_pos he] at hba
      rw [if_pos he]
      have hbb : b0 = blk := Option.some.inj hba
      subst hbb
      subst he
      unfold lookupAt at hbn
      rw [if_neg (by have hH : HEADER_SIZE = 24 := rfl; omega)] at hbn
      cases bs with
      | nil => simp [lookupAt] at hbn
      | cons n rest =>
        unfold lookupAt at hbn
        rw [if_pos rfl] at hbn
        have hnn : n = nb := Option.some.inj hbn
        subst hnn
        simp [usedSum, List.filter_cons, hfa, hfn]
    · rw [if_neg he] at hba
      rw [if_neg he]
      unfold lookupAt at hbn
      have hge := lookupAt_ge hba
      rw [if_neg (by have hH : HEADER_SIZE = 24 := rfl; omega)] at hbn
      simp only [usedSum, List.filter_cons] at *
      by_cases hb0 : (!b0.is_free) = true
      · rw [if_pos hb0, if_pos hb0]
        simp only [List.map_cons, List.sum_cons]
        rw [ih hba hbn]
      · rw [if_neg hb0, if_neg hb0]
        exact ih hba hbn

/-- Reading back the merged block. -/
theorem ct_lookup_self {addr : Nat} {bs : List BlockHeader} {a : Nat}
    {blk nb : BlockHeader} (hba : lookupAt addr bs a = some blk)
    (hbn : lookupAt addr bs (a + HEADER_SIZE + blk.size) = some nb) :
    lookupAt addr (coalesceTiles addr bs a) a =
      some { blk with size := (blk.size + HEADER_SIZE + nb.size) % USIZE } := by
  induction bs generalizing addr with
  | nil => simp [lookupAt] at hba
  | cons b0 bs ih =>
    unfold lookupAt at hba
    unfold coalesceTiles
    by_cases he : a = addr
    · rw [if_pos he] at hba
      rw [if_pos he]
      have hbb : b0 = blk := Option.some.inj hba
      subst hbb
      subst he
      unfold lookupAt at hbn
      rw [if_neg (by have hH : HEADER_SIZE = 24 := rfl; omega)] at hbn
      cases bs with
      | nil => simp [lookupAt] at hbn
      | cons n rest =>
        unfold lookupAt at hbn
        rw [if_pos rfl] at hbn
        have hnn : n = nb := Option.some.inj hbn
        subst hnn
        unfold lookupAt
        rw [if_pos rfl]
    · rw [if_neg he] at hba
      rw [if_neg he]
      unfold lookupAt at hbn
      have hge := lookupAt_ge hba
      rw [if_neg (by have hH : HEADER_SIZE = 24 := rfl; omega)] at hbn
      unfold lookupAt
      rw [if_neg he]
      exact ih hba hbn

/-- Headers other than the merged block and its absorbed neighbour are
unchanged by the merge. -/
theorem ct_lookup_other {addr : Nat} {bs : List BlockHeader} {a : Nat}
    {blk nb : BlockHeader} (hba : lookupAt addr bs a = some blk)
    (hbn : lookupAt addr bs (a + HEADER_SIZE + blk.size) = some nb)
    (hstrip : blk.size + HEADER_SIZE + nb.size < USIZE)
    (x : Nat) (hx1 : x ≠ a) (hx2 : x ≠ a + HEADER_SIZE + blk.size) :
    lookupAt addr (coalesceTiles addr bs a) x = lookupAt addr bs x := by
  induction bs generalizing addr with
  | nil => rfl
  | cons b0 bs ih =>
    unfold lookupAt at hba
    unfold coalesceTiles
    by_cases he : a = addr
    · rw [if_pos he] at hba
      rw [if_pos he]
      have hbb : b0 = blk := Option.some.inj hba
      subst hbb
      subst he
      unfold lookupAt at hbn
      rw [if_neg (by have hH : HEADER_SIZE = 24 := rfl; omega)] at hbn
      cases bs with
      | nil => simp [lookupAt] at hbn
      | cons n rest =>
        unfold lookupAt at hbn
        rw [if_pos rfl] at hbn
        have hnn : n = nb := Option.some.inj hbn
        subst hnn
        simp only [lookupAt]
        rw [if_neg hx1, if_neg hx1, if_neg hx2]
        have harr : a + HEADER_SIZE + (b0.size + HEADER_SIZE + n.size) % USIZE
            = a + HEADER_SIZE + b0.size + HEADER_SIZE + n.size := by
          rw [Nat.mod_eq_of_lt hstrip]
          omega
        rw [harr]
    · rw [if_neg he] at hba
      rw [if_neg he]
      unfold lookupAt at hbn
      have hge := lookupAt_ge hba
      rw [if_neg (by have hH : HEADER_SIZE = 24 := rfl; omega)] at hbn
      simp only [lookupAt]
      by_cases hx : x = addr
      · rw [if_pos hx, if_pos hx]
      · rw [if_neg hx, if_neg hx]
        exact ih hba hbn

/-- The `coalesce` walk preserves the tiling and used sums, keeps the
freelist duplicate-free and a subset of the original one, keeps every
surviving node a free block, and leaves headers at addresses outside the
walked freelist untouched. -/
theorem coalesceWalk_WF (base : Nat) :
    ∀ (n : Nat) (bs : List BlockHeader) (l : List Nat),
      l.length ≤ n →
      base + tileSum bs ≤ 2 ^ 62 →
      l.Nodup →
      (∀ x ∈ l, ∃ c, lookupAt base bs x = some c ∧ c.is_free = true) →
      tileSum (coalesceWalk base bs l).1 = tileSum bs ∧
      usedSum (coalesceWalk base bs l).1 = usedSum bs ∧
      (coalesceWalk base bs l).2.Nodup ∧
      (∀ x ∈ (coalesceWalk base bs l).2, x ∈ l) ∧
      (∀ x ∈ (coalesceWalk base bs l).2, ∃ c,
        lookupAt base (coalesceWalk base bs l).1 x = some c ∧ c.is_free = true) ∧
      (∀ x, x ∉ l → lookupAt base (coalesceWalk base bs l).1 x
        = lookupAt base bs x) := by
  intro n
  induction n with
  | zero =>
    intro bs l hlen _ hnodup hfree
    have hl : l = [] := List.eq_nil_of_length_eq_zero (Nat.le_zero.mp hlen)
    subst hl
    simp [coalesceWalk]
  | succ n ih =>
    intro bs l hlen hb62 hnodup hfree
    match l with
    | [] => simp [coalesceWalk]
    | [a] =>
      simp only [coalesceWalk]
      exact ⟨by trivial, by trivial, hnodup, fun x hx => hx, hfree,
        fun x _ => by trivial⟩
    | a :: bn :: rest =>
      obtain ⟨blkA, hlA, hfA⟩ := hfree a (List.mem_cons_self a (bn :: rest))
      have hU : USIZE = 18446744073709551616 := USIZE_eq
      have h62 : (2 : Nat) ^ 62 = 4611686018427387904 := two62_eq
      have hH : HEADER_SIZE = 24 := rfl
      have hend := lookupAt_end_le hlA
      simp only [coalesceWalk, hlA]
      by_cases hadj : (a + HEADER_SIZE + blkA.size) % USIZE = bn
      · rw [if_pos hadj]
        have hbn_eq : bn = a + HEADER_SIZE + blkA.size := by
          rw [← hadj, Nat.mod_eq_of_lt (by omega)]
        obtain ⟨nbB, hlB, hfB⟩ := hfree bn (by simp)
        rw [hbn_eq] at hlB
        have hnodup' : (a :: rest).Nodup := by
          rcases List.nodup_cons.mp hnodup with ⟨ha1, h2⟩
          rcases List.nodup_cons.mp h2 with ⟨hb1, h3⟩
          exact List.nodup_cons.mpr
            ⟨fun hc => ha1 (List.mem_cons_of_mem bn hc), h3⟩
        have hbn_notin_rest : bn ∉ rest :=
          (List.nodup_cons.mp (List.nodup_cons.mp hnodup).2).1
        have hendB := lookupAt_end_le hlB
        have hstrip : blkA.size + HEADER_SIZE + nbB.size < USIZE := by omega
        have hct_sum := ct_tileSum hlA hlB hstrip
        have hct_used := ct_usedSum hlA hlB hfA hfB
        have hct_self := ct_lookup_self hlA hlB
        have hfree' : ∀ x ∈ a :: rest, ∃ c,
            lookupAt base (coalesceTiles base bs a) x = some c ∧
            c.is_free = true := by
          intro x hx
          rcases List.mem_cons.mp hx with rfl | hx
          · refine ⟨_, hct_self, ?_⟩
            show blkA.is_free = true
            exact hfA
          · have hxa : x ≠ a := by
              intro hc
              exact (List.nodup_cons.mp hnodup').1 (hc ▸ hx)
            have hxbn : x ≠ a + HEADER_SIZE + blkA.size := by
              rw [← hbn_eq]
              intro hc
              exact hbn_notin_rest (hc ▸ hx)
            obtain ⟨c, hc, hcf⟩ := hfree x (by simp [hx])
            exact ⟨c, by rw [ct_lookup_other hlA hlB hstrip x hxa hxbn]; exact hc,
              hcf⟩
        have hlen' : (a :: rest).length ≤ n := by
          simp at hlen ⊢
          omega
        have hb62' : base + tileSum (coalesceTiles base bs a) ≤ 2 ^ 62 := by
          rw [hct_sum]
          exact hb62
        obtain ⟨i1, i2, i3, i4, i5, i6⟩ :=
          ih (coalesceTiles base bs a) (a :: rest) hlen' hb62' hnodup' hfree'
        refine ⟨by rw [i1, hct_sum], by rw [i2, hct_used], i3, ?_, i5, ?_⟩
        · intro x hx
          rcases List.mem_cons.mp (i4 x hx) with rfl | hx2
          · exact List.mem_cons_self x (bn :: rest)
          · exact List.mem_cons_of_mem a (List.mem_cons_of_mem bn hx2)
        · intro x hxnot
          have hxnot' : x ∉ a :: rest := by
            intro hc
            rcases List.mem_cons.mp hc with rfl | hc
            · exact hxnot (List.mem_cons_self x (bn :: rest))
            · exact hxnot (by simp [hc])
          rw [i6 x hxnot']
          have hxa : x ≠ a := fun hc => hxnot (by simp [hc])
          have hxbn : x ≠ a + HEADER_SIZE + blkA.size := by
            rw [← hbn_eq]
            intro hc
            exact hxnot (by simp [hc])
          exact ct_lookup_other hlA hlB hstrip x hxa hxbn
      · rw [if_neg hadj]
        have hlen' : (bn :: rest).length ≤ n := by
          simp at hlen ⊢
          omega
        have hnodup' := (List.nodup_cons.mp hnodup).2
        have hfree' : ∀ x ∈ bn :: rest, ∃ c,
            lookupAt base bs x = some c ∧ c.is_free = true :=
          fun x hx => hfree x (List.mem_cons_of_mem a hx)
        obtain ⟨i1, i2, i3, i4, i5, i6⟩ := ih bs (bn :: rest) hlen' hb62 hnodup' hfree'
        have ha_notin : a ∉ bn :: rest := (List.nodup_cons.mp hnodup).1
        refine ⟨i1, i2, ?_, ?_, ?_, ?_⟩
        · exact List.nodup_cons.mpr ⟨fun hc => ha_notin (i4 a hc), i3⟩
        · intro x hx
          rcases List.mem_cons.mp hx with rfl | hx
          · exact List.mem_cons_self x (bn :: rest)
          · exact List.mem_cons_of_mem a (i4 x hx)
        · intro x hx
          rcases List.mem_cons.mp hx with rfl | hx
          · exact ⟨blkA, by rw [i6 x ha_notin]; exact hlA, hfA⟩
          · exact i5 x hx
        · intro x hxnot
          exact i6 x (fun hc => hxnot (List.mem_cons_of_mem a hc))

/-- The scan loop returns the first offset whose check succeeds. -/
theorem scanGo_reaches (h : FreeListAllocator) (p : Nat) {c : Nat} :
    ∀ (fuel i j : Nat), i ≤ j → j < i + fuel →
      (∀ k, i ≤ k → k < j → scanCheck h p k = none) →
      scanCheck h p j = some c →
      scanGo h p i fuel = some c := by
  intro fuel
  induction fuel with
  | zero =>
    intro i j hij hkj _ _
    omega
  | succ fuel ih =>
    intro i j hij hkj hnone hfound
    by_cases hieq : i = j
    · subst hieq
      simp only [scanGo, hfound]
    · have hi : scanCheck h p i = none := hnone i (Nat.le_refl i) (by omega)
      simp only [scanGo, hi]
      exact ih (i + 1) j (by omega) (by omega)
        (fun k hk1 hk2 => hnone k (by omega) hk2) hfound

/-- Header recovery: for a pointer returned by `allocate` over a used block
whose stored padding does not exceed `alignof(max_align_t)`, the scan in
`deallocate` recovers exactly that block's header address. -/
theorem heap_resolve_eq (h : FreeListAllocator) (a : Nat) (b : BlockHeader)
    (hl : h.lookup a = some b) (hfree : b.is_free = false)
    (hpad : b.padding ≤ MAX_ALIGN_T) :
    h.resolve (a + HEADER_SIZE + b.padding) = a := by
  have hge : h.m_memory ≤ a := lookupAt_ge hl
  have hH : HEADER_SIZE = 24 := rfl
  have hM : MAX_ALIGN_T = 16 := rfl
  have hcj : scanCheck h (a + HEADER_SIZE + b.padding) b.padding = some a := by
    simp only [scanCheck]
    have hc : a + HEADER_SIZE + b.padding - (HEADER_SIZE + b.padding) = a := by
      omega
    rw [hc, hl]
    show (if h.m_memory ≤ a ∧ b.is_free = false ∧ b.padding = b.padding
      then some a else none) = some a
    exact if_pos ⟨hge, hfree, rfl⟩
  have hnone : ∀ k, 0 ≤ k → k < b.padding →
      scanCheck h (a + HEADER_SIZE + b.padding) k = none := by
    intro k _ hk
    simp only [scanCheck]
    have hck : a + HEADER_SIZE + b.padding - (HEADER_SIZE + k)
        = a + (b.padding - k) := by omega
    rw [hck]
    have hint : h.lookup (a + (b.padding - k)) = none := by
      apply lookupAt_interior hl
      · omega
      · omega
    rw [hint]
  have hgo := scanGo_reaches h (a + HEADER_SIZE + b.padding) (MAX_ALIGN_T + 1)
    0 b.padding (Nat.zero_le _) (by omega) (fun k h1 h2 => hnone k h1 h2) hcj
  unfold FreeListAllocator.resolve
  rw [hgo]

/-- `deallocate` at a pointer whose block header is recoverable: it
succeeds, preserves the well-formedness invariant, and subtracts
`HEADER_SIZE + size` of the freed block from `m_used`. -/
theorem heap_deallocate_WF (h : FreeListAllocator) (a : Nat) (b : BlockHeader)
    (hWF : HeapWF h) (hl : h.lookup a = some b) (hfree : b.is_free = false)
    (hpad : b.padding ≤ MAX_ALIGN_T) :
    ∃ h', h.deallocate (a + HEADER_SIZE + b.padding) = some h' ∧
      HeapWF h' ∧
      h'.m_used = h.m_used - (HEADER_SIZE + b.size) ∧
      h'.m_size = h.m_size ∧ h'.m_memory = h.m_memory ∧
      h'.m_strategy = h.m_strategy := by
  obtain ⟨hW1, hW2, hW3, hW4, hW5⟩ := hWF
  have hH : HEADER_SIZE = 24 := rfl
  have hU := USIZE_eq
  have h62 := two62_eq
  have hnotin : a ∉ h.m_free_list := by
    intro hin
    obtain ⟨c, hc, hcf⟩ := hW5 a hin
    rw [hl] at hc
    have hbc : b = c := Option.some.inj hc
    rw [← hbc, hfree] at hcf
    exact Bool.noConfusion hcf
  have hp0 : a + HEADER_SIZE + b.padding ≠ 0 := by omega
  have hres := heap_resolve_eq h a b hl hfree hpad
  have hsz_le : HEADER_SIZE + b.size ≤ tileSum h.blocks := lookupAt_size_le hl
  have hused_le : HEADER_SIZE + b.size ≤ usedSum h.blocks :=
    lookupAt_used_le_usedSum hl hfree
  have husum_le : usedSum h.blocks ≤ tileSum h.blocks := usedSum_le_tileSum _
  -- the intermediate state before coalescing
  have hf_size : ∀ blk : BlockHeader,
      ({ blk with is_free := true } : BlockHeader).size = blk.size :=
    fun blk => rfl
  have hf_free : ∀ blk : BlockHeader,
      ({ blk with is_free := true } : BlockHeader).is_free = true :=
    fun blk => rfl
  have htile1 : tileSum (updAt (fun blk => { blk with is_free := true })
      h.m_memory h.blocks a) = tileSum h.blocks :=
    updAt_tileSum (fun blk => { blk with is_free := true }) hf_size _ _ _
  have hused1 : usedSum h.blocks =
      usedSum (updAt (fun blk => { blk with is_free := true })
        h.m_memory h.blocks a) + (HEADER_SIZE + b.size) :=
    updAt_usedSum_to_free (fun blk => { blk with is_free := true })
      hf_size hf_free hl hfree
  have hself1 : lookupAt h.m_memory (updAt (fun blk => { blk with is_free := true })
      h.m_memory h.blocks a) a = some { b with is_free := true } :=
    updAt_lookup_self (fun blk => { blk with is_free := true }) hf_size hl
  have hWalk := coalesceWalk_WF h.m_memory (a :: h.m_free_list).length
    (updAt (fun blk => { blk with is_free := true }) h.m_memory h.blocks a)
    (a :: h.m_free_list) (Nat.le_refl _)
    (by rw [htile1, hW2]; exact hW1)
    (List.nodup_cons.mpr ⟨hnotin, hW4⟩)
    (by
      intro x hx
      rcases List.mem_cons.mp hx with rfl | hx
      · exact ⟨{ b with is_free := true }, hself1, rfl⟩
      · obtain ⟨c, hc, hcf⟩ := hW5 x hx
        have hxa : x ≠ a := fun hc2 => hnotin (hc2 ▸ hx)
        refine ⟨c, ?_, hcf⟩
        rw [updAt_lookup_other (fun blk => { blk with is_free := true })
          hf_size h.m_memory h.blocks a x hxa]
        exact hc)
  obtain ⟨i1, i2, i3, i4, i5, i6⟩ := hWalk
  refine ⟨FreeListAllocator.coalesce
    { h with
      m_used := wsub h.m_used ((HEADER_SIZE + b.size) % USIZE),
      blocks := updAt (fun blk => { blk with is_free := true })
        h.m_memory h.blocks a,
      m_free_list := a :: h.m_free_list }, ?_, ?_, ?_, rfl, rfl, rfl⟩
  · show h.deallocate (a + HEADER_SIZE + b.padding) = some _
    unfold FreeListAllocator.deallocate
    rw [if_neg hp0]
    simp only [hres, hl]
  · refine ⟨hW1, ?_, ?_, i3, ?_⟩
    · show tileSum (coalesceWalk h.m_memory _ (a :: h.m_free_list)).1 = h.m_size
      rw [i1, htile1, hW2]
    · show wsub h.m_used ((HEADER_SIZE + b.size) % USIZE) =
        usedSum (coalesceWalk h.m_memory _ (a :: h.m_free_list)).1
      rw [i2]
      have hsmod : (HEADER_SIZE + b.size) % USIZE = HEADER_SIZE + b.size :=
        Nat.mod_eq_of_lt (by omega)
      rw [hsmod, wsub_exact (by omega) (by omega), hW3]
      omega
    · intro x hx
      exact i5 x hx
  · show wsub h.m_used ((HEADER_SIZE + b.size) % USIZE)
      = h.m_used - (HEADER_SIZE + b.size)
    have hsmod : (HEADER_SIZE + b.size) % USIZE = HEADER_SIZE + b.size :=
      Nat.mod_eq_of_lt (by omega)
    rw [hsmod, wsub_exact (by omega) (by omega)]

/-- States reachable through the public interface of the heap allocator:
construction with a workable region inside the address space, `allocate`,
`deallocate` at a pointer observing the deallocation contract (it points
just past the header and stored padding of a live block, and the stored
padding does not exceed `alignof(std::max_align_t)`), and `reset`. -/
inductive HeapReached : FreeListAllocator → Prop
  | mk_owned (raw size : Nat) (strategy : Strategy)
      (hsz : HEADER_SIZE < size) (hb : raw + size ≤ 2 ^ 62) :
      HeapReached (FreeListAllocator.mkOwned raw size strategy)
  | mk_borrowed (buffer size : Nat) (strategy : Strategy)
      (hsz : HEADER_SIZE < size) (hb : buffer + size ≤ 2 ^ 62) :
      HeapReached (FreeListAllocator.mkBorrowed buffer size strategy)
  | alloc (h : FreeListAllocator) (size align : Nat) :
      HeapReached h → HeapReached (h.allocate size align).2
  | dealloc (h h' : FreeListAllocator) (a : Nat) (b : BlockHeader) :
      HeapReached h →
      h.lookup a = some b → b.is_free = false → b.padding ≤ MAX_ALIGN_T →
      h.deallocate (a + HEADER_SIZE + b.padding) = some h' →
      HeapReached h'
  | reset (h : FreeListAllocator) :
      HeapReached h → HeapReached h.reset

/-- A state holding one free block spanning the whole region is
well-formed. -/
theorem HeapWF_single (h : FreeListAllocator)
    (hblocks : h.blocks =
      [{ size := h.m_size - HEADER_SIZE, is_free := true, padding := 0 }])
    (hflist : h.m_free_list = [h.m_memory])
    (hused : h.m_used = 0)
    (hsz : HEADER_SIZE < h.m_size)
    (hb : h.m_memory + h.m_size ≤ 2 ^ 62) : HeapWF h := by
  have hH : HEADER_SIZE = 24 := rfl
  refine ⟨hb, ?_, ?_, ?_, ?_⟩
  · rw [hblocks]
    simp [tileSum]
    omega
  · rw [hused, hblocks]
    simp [usedSum]
  · rw [hflist]
    simp
  · intro a ha
    rw [hflist] at ha
    simp at ha
    subst ha
    refine ⟨{ size := h.m_size - HEADER_SIZE, is_free := true, padding := 0 },
      ?_, rfl⟩
    unfold FreeListAllocator.lookup
    rw [hblocks]
    unfold lookupAt
    rw [if_pos rfl]

/-- Every reachable heap state is well-formed. -/
theorem heapReached_WF (h : FreeListAllocator) (hr : HeapReached h) :
    HeapWF h := by
  induction hr with
  | mk_owned raw size strategy hsz hb =>
    unfold FreeListAllocator.mkOwned
    rw [if_pos hsz]
    exact HeapWF_single _ rfl rfl rfl hsz hb
  | mk_borrowed buffer size strategy hsz hb =>
    unfold FreeListAllocator.mkBorrowed
    rw [if_pos hsz]
    exact HeapWF_single _ rfl rfl rfl hsz hb
  | alloc h size align hr ih =>
    exact (heap_allocate_WF h size align ih).1
  | dealloc h h' a b hr hl hfree hpad hde ih =>
    obtain ⟨h'', hdeq, hwf2, _⟩ := heap_deallocate_WF h a b ih hl hfree hpad
    rw [hde] at hdeq
    have hh : h' = h'' := Option.some.inj hdeq
    subst hh
    exact hwf2
  | reset h hr ih =>
    unfold FreeListAllocator.reset
    by_cases hsz : HEADER_SIZE < h.m_size
    · rw [if_pos hsz]
      exact HeapWF_single _ rfl rfl rfl hsz ih.1
    · rw [if_neg hsz]
      exact ih

/-- C2: in every heap-allocator state reachable through construction,
`allocate`, contract-respecting `deallocate`, and `reset`, the blocks tile
the backing region (the sum of `HEADER_SIZE + size` over all blocks equals
the capacity) and `used_size()` equals the sum of `HEADER_SIZE + size`
over exactly the non-free blocks, so headers of free sliver blocks created
by splits are not counted. -/
theorem heap_tiling_and_used_invariant (h : FreeListAllocator)
    (hr : HeapReached h) :
    tileSum h.blocks = h.total_size ∧
    h.used_size = usedSum h.blocks := by
  obtain ⟨_, h2, h3, _, _⟩ := heapReached_WF h hr
  exact ⟨h2, h3⟩

/-- Witness for C2 at a concrete reachable state (a fresh 1024-byte heap
after one allocation). -/
theorem heap_tiling_and_used_invariant_witness :
    tileSum ((FreeListAllocator.mkOwned 0 1024 Strategy.FirstFit).allocate
        10 32).2.blocks
      = ((FreeListAllocator.mkOwned 0 1024 Strategy.FirstFit).allocate
        10 32).2.total_size ∧
    ((FreeListAllocator.mkOwned 0 1024 Strategy.FirstFit).allocate
        10 32).2.used_size
      = usedSum ((FreeListAllocator.mkOwned 0 1024 Strategy.FirstFit).allocate
        10 32).2.blocks :=
  heap_tiling_and_used_invariant _
    (HeapReached.alloc _ 10 32
      (HeapReached.mk_owned 0 1024 Strategy.FirstFit (by decide)
        (by norm_num)))

/-- The heap state backing the fit-policy example: free payloads 80, 200,
120 in freelist scan order, separated by used 8-byte blocks. -/
def heapC3 (s : Strategy) : FreeListAllocator :=
  { m_memory := 0, m_size := 536, m_used := 64, m_strategy := s,
    blocks := [⟨80, true, 0⟩, ⟨8, false, 0⟩, ⟨200, true, 0⟩, ⟨8, false, 0⟩,
      ⟨120, true, 0⟩],
    m_free_list := [0, 136, 392], m_owns_memory := false }

/-- `find_first_fit` returns the earliest fitting node: everything before
it in scan order fails the fit test. -/
theorem find_first_fit_earliest {size align : Nat} :
    ∀ (l : List (Nat × BlockHeader)) (p : Nat × BlockHeader),
      find_first_fit size align l = some p →
      ∃ l1 l2, l = l1 ++ p :: l2 ∧ ∀ q ∈ l1, fitsReq size align q = false := by
  intro l
  induction l with
  | nil =>
    intro p h
    simp [find_first_fit] at h
  | cons q rest ih =>
    intro p h
    unfold find_first_fit at h
    cases hq : fitsReq size align q with
    | true =>
      rw [List.find?_cons_of_pos rest hq] at h
      have hqp : q = p := Option.some.inj h
      subst hqp
      exact ⟨[], rest, rfl, fun x hx => absurd hx (List.not_mem_nil x)⟩
    | false =>
      rw [List.find?_cons_of_neg rest (by rw [hq]; exact Bool.false_ne_true)] at h
      obtain ⟨l1, l2, hsplit, hall⟩ := ih p h
      refine ⟨q :: l1, l2, by rw [hsplit, List.cons_append], ?_⟩
      intro x hx
      rcases List.mem_cons.mp hx with rfl | hx
      · exact hq
      · exact hall x hx

/-- Accumulator invariant of the best-fit loop: a returned node not handed
in as the running best is strictly below the running `smallest_suitable`,
and strictly smaller than every fitting node scanned before it. -/
theorem find_best_fit_aux_earliest {size align : Nat} :
    ∀ (l : List (Nat × BlockHeader)) (best : Option (Nat × BlockHeader))
      (smallest : Nat) (p : Nat × BlockHeader),
      find_best_fit_aux size align best smallest l = some p →
      best = some p ∨
      ∃ l1 l2, l = l1 ++ p :: l2 ∧ p.2.size < smallest ∧
        ∀ q ∈ l1, fitsReq size align q = true → p.2.size < q.2.size := by
  intro l
  induction l with
  | nil =>
    intro best smallest p h
    exact Or.inl h
  | cons q rest ih =>
    intro best smallest p h
    unfold find_best_fit_aux at h
    by_cases hc : (size + calc_padding (q.1 + HEADER_SIZE) align) % USIZE ≤ q.2.size
      ∧ q.2.size < smallest
    · rw [if_pos hc] at h
      by_cases hex : q.2.size = (size + calc_padding (q.1 + HEADER_SIZE) align) % USIZE
      · rw [if_pos hex] at h
        have hqp : q = p := Option.some.inj h
        subst hqp
        exact Or.inr ⟨[], rest, rfl, hc.2,
          fun x hx => absurd hx (List.not_mem_nil x)⟩
      · rw [if_neg hex] at h
        rcases ih (some q) q.2.size p h with hb | ⟨l1, l2, hsplit, hlt, hall⟩
        · have hqp : q = p := Option.some.inj hb
          subst hqp
          exact Or.inr ⟨[], rest, rfl, hc.2,
            fun x hx => absurd hx (List.not_mem_nil x)⟩
        · refine Or.inr ⟨q :: l1, l2, by rw [hsplit, List.cons_append], ?_, ?_⟩
          · omega
          · intro x hx hfx
            rcases List.mem_cons.mp hx with rfl | hx
            · exact hlt
            · exact hall x hx hfx
    · rw [if_neg hc] at h
      rcases ih best smallest p h with hb | ⟨l1, l2, hsplit, hlt, hall⟩
      · exact Or.inl hb
      · refine Or.inr ⟨q :: l1, l2, by rw [hsplit, List.cons_append], hlt, ?_⟩
        intro x hx hfx
        rcases List.mem_cons.mp hx with rfl | hx
        · have hnf : ¬ x.2.size < smallest := by
            intro hlt2
            exact hc ⟨by simpa [fitsReq] using hfx, hlt2⟩
          omega
        · exact hall x hx hfx

/-- Accumulator invariant of the worst-fit loop: a returned node not handed
in as the running worst is strictly above the running `largest_suitable`,
and strictly larger than every fitting node scanned before it. -/
theorem find_worst_fit_aux_earliest {size align : Nat} :
    ∀ (l : List (Nat × BlockHeader)) (worst : Option (Nat × BlockHeader))
      (largest : Nat) (p : Nat × BlockHeader),
      find_worst_fit_aux size align worst largest l = some p →
      worst = some p ∨
      ∃ l1 l2, l = l1 ++ p :: l2 ∧ largest < p.2.size ∧
        ∀ q ∈ l1, fitsReq size align q = true → q.2.size < p.2.size := by
  intro l
  induction l with
  | nil =>
    intro worst largest p h
    exact Or.inl h
  | cons q rest ih =>
    intro worst largest p h
    unfold find_worst_fit_aux at h
    by_cases hc : (size + calc_padding (q.1 + HEADER_SIZE) align) % USIZE ≤ q.2.size
      ∧ largest < q.2.size
    · rw [if_pos hc] at h
      rcases ih (some q) q.2.size p h with hb | ⟨l1, l2, hsplit, hlt, hall⟩
      · have hqp : q = p := Option.some.inj hb
        subst hqp
        exact Or.inr ⟨[], rest, rfl, hc.2,
          fun x hx => absurd hx (List.not_mem_nil x)⟩
      · refine Or.inr ⟨q :: l1, l2, by rw [hsplit, List.cons_append], ?_, ?_⟩
        · omega
        · intro x hx hfx
          rcases List.mem_cons.mp hx with rfl | hx
          · exact hlt
          · exact hall x hx hfx
    · rw [if_neg hc] at h
      rcases ih worst largest p h with hb | ⟨l1, l2, hsplit, hlt, hall⟩
      · exact Or.inl hb
      · refine Or.inr ⟨q :: l1, l2, by rw [hsplit, List.cons_append], hlt, ?_⟩
        intro x hx hfx
        rcases List.mem_cons.mp hx with rfl | hx
        · have hnf : ¬ largest < x.2.size := by
            intro hlt2
            exact hc ⟨by simpa [fitsReq] using hfx, hlt2⟩
          omega
        · exact hall x hx hfx

/-- C3: on the freelist with free payload sizes 80, 200, 120 in scan order
and a 100-byte request with no alignment padding, FirstFit selects the
200-byte block, BestFit the 120-byte block, WorstFit the 200-byte block;
each strategy returns the earliest candidate in freelist order among
equally good ones (every earlier fitting node fails the test, is strictly
larger, or is strictly smaller respectively); and the best-fit scan stops
on an exact fit, returning it whatever follows in the list. -/
theorem heap_fit_strategies_spec :
    ((heapC3 Strategy.FirstFit).findBlock 100 1
        = some (136, ⟨200, true, 0⟩) ∧
     (heapC3 Strategy.BestFit).findBlock 100 1
        = some (392, ⟨120, true, 0⟩) ∧
     (heapC3 Strategy.WorstFit).findBlock 100 1
        = some (136, ⟨200, true, 0⟩)) ∧
    (∀ (size align : Nat) (l : List (Nat × BlockHeader))
        (p : Nat × BlockHeader),
      find_first_fit size align l = some p →
      ∃ l1 l2, l = l1 ++ p :: l2 ∧ ∀ q ∈ l1, fitsReq size align q = false) ∧
    (∀ (size align : Nat) (l : List (Nat × BlockHeader))
        (p : Nat × BlockHeader),
      find_best_fit size align l = some p →
      ∃ l1 l2, l = l1 ++ p :: l2 ∧
        ∀ q ∈ l1, fitsReq size align q = true → p.2.size < q.2.size) ∧
    (∀ (size align : Nat) (l : List (Nat × BlockHeader))
        (p : Nat × BlockHeader),
      find_worst_fit size align l = some p →
      ∃ l1 l2, l = l1 ++ p :: l2 ∧
        ∀ q ∈ l1, fitsReq size align q = true → q.2.size < p.2.size) ∧
    (∀ (size align : Nat) (p : Nat × BlockHeader)
        (l2 : List (Nat × BlockHeader)) (best : Option (Nat × BlockHeader))
        (smallest : Nat),
      p.2.size = (size + calc_padding (p.1 + HEADER_SIZE) align) % USIZE →
      p.2.size < smallest →
      find_best_fit_aux size align best smallest (p :: l2) = some p) := by
  refine ⟨⟨by decide, by decide, by decide⟩, ?_, ?_, ?_, ?_⟩
  · intro size align l p h
    exact find_first_fit_earliest l p h
  · intro size align l p h
    rcases find_best_fit_aux_earliest l none (USIZE - 1) p h with hb | ⟨l1, l2, hs, _, hall⟩
    · exact absurd hb (by simp)
    · exact ⟨l1, l2, hs, hall⟩
  · intro size align l p h
    rcases find_worst_fit_aux_earliest l none 0 p h with hb | ⟨l1, l2, hs, _, hall⟩
    · exact absurd hb (by simp)
    · exact ⟨l1, l2, hs, hall⟩
  · intro size align p l2 best smallest hex hlt
    simp only [find_best_fit_aux]
    rw [if_pos ⟨le_of_eq hex.symm, hlt⟩, if_pos hex]

/-- Witness for C3's universally quantified parts at concrete inputs: the
exact-fit short-circuit on a list whose tail holds a smaller fitting
block. -/
theorem heap_fit_strategies_spec_witness :
    find_best_fit_aux 16 1 none (USIZE - 1)
      [(0, ⟨16, true, 0⟩), (100, ⟨12, true, 0⟩)] = some (0, ⟨16, true, 0⟩) :=
  heap_fit_strategies_spec.2.2.2.2 16 1 (0, ⟨16, true, 0⟩)
    [(100, ⟨12, true, 0⟩)] none (USIZE - 1) (by decide)
    (by norm_num [USIZE])

/-- Characterization of a successful `allocate`: the returned pointer is
`block + HEADER_SIZE + padding`, the chosen block's header is rewritten in
place with the padding byte stored, and `m_used` grows by exactly the
account of the (possibly shortened) block. -/
theorem heap_allocate_state (h : FreeListAllocator) (size align : Nat)
    (hwf : HeapWF h) (hsz : size ≠ 0) {a : Nat} {b : BlockHeader}
    (hfind : h.findBlock (max size MIN_BLOCK_SIZE) align = some (a, b)) :
    ∃ S : Nat,
      (h.allocate size align).1
        = some ((a + HEADER_SIZE + calc_padding (a + HEADER_SIZE) align) % USIZE) ∧
      (h.allocate size align).2.lookup a = some
        { size := S, is_free := false,
          padding := calc_padding (a + HEADER_SIZE) align % 256 } ∧
      HEADER_SIZE + S ≤ h.m_size ∧
      (h.allocate size align).2.m_used = h.m_used + (HEADER_SIZE + S) := by
  obtain ⟨hbound, hH1, hH5, hnodup, hfreeAll⟩ := hwf
  obtain ⟨hmemL, hlook, hfit⟩ := findBlock_spec hfind
  have hU : USIZE = 18446744073709551616 := USIZE_eq
  have h62 : (2 : Nat) ^ 62 = 4611686018427387904 := two62_eq
  have hH : HEADER_SIZE = 24 := rfl
  have hM : MIN_BLOCK_SIZE = 8 := rfl
  set sz' := max size MIN_BLOCK_SIZE with hszdef
  set pad := calc_padding (a + HEADER_SIZE) align with hpaddef
  set T := (pad + sz') % USIZE with hTdef
  have hTfit : T ≤ b.size := by rw [hTdef, Nat.add_comm]; exact hfit
  have hbsz : HEADER_SIZE + b.size ≤ h.m_size := hH1 ▸ lookupAt_size_le hlook
  have hmsize : h.m_size ≤ 2 ^ 62 := by omega
  have hused62 : h.m_used ≤ 2 ^ 62 := by
    rw [hH5]
    calc usedSum h.blocks ≤ tileSum h.blocks := usedSum_le_tileSum h.blocks
      _ = h.m_size := hH1
      _ ≤ 2 ^ 62 := hmsize
  by_cases hgd : (T + HEADER_SIZE + MIN_BLOCK_SIZE) % USIZE ≤ b.size
  · rw [h.allocate_eq_split size align hsz hfind hgd]
    have hgd' : T + HEADER_SIZE + MIN_BLOCK_SIZE ≤ b.size := by
      rw [Nat.mod_eq_of_lt (by omega)] at hgd
      exact hgd
    have hRval : wsub (wsub (wsub b.size sz') pad) HEADER_SIZE
        = b.size - T - HEADER_SIZE :=
      split_remaining hgd' (by omega)
    have hTR : T + HEADER_SIZE
        + wsub (wsub (wsub b.size sz') pad) HEADER_SIZE = b.size := by
      rw [hRval]
      omega
    have hself := splitTiles_lookup_self sz' pad hlook
    refine ⟨T, rfl, ?_, by omega, ?_⟩
    · show lookupAt h.m_memory (updAt
        (fun blk => { blk with is_free := false, padding := pad % 256 })
        h.m_memory (splitTiles h.m_memory h.blocks a sz' pad) a) a = _
      exact updAt_lookup_self
        (fun blk => { blk with is_free := false, padding := pad % 256 })
        (fun _ => rfl) hself
    · show (h.m_used + (HEADER_SIZE + T) % USIZE) % USIZE
        = h.m_used + (HEADER_SIZE + T)
      rw [Nat.mod_eq_of_lt (show HEADER_SIZE + T < USIZE by omega),
        Nat.mod_eq_of_lt (show h.m_used + (HEADER_SIZE + T) < USIZE by omega)]
  · rw [h.allocate_eq_nosplit size align hsz hfind hgd]
    refine ⟨b.size, rfl, ?_, hbsz, ?_⟩
    · show lookupAt h.m_memory (updAt
        (fun blk => { blk with is_free := false, padding := pad % 256 })
        h.m_memory h.blocks a) a = _
      exact updAt_lookup_self
        (fun blk => { blk with is_free := false, padding := pad % 256 })
        (fun _ => rfl) hlook
    · show (h.m_used + (HEADER_SIZE + b.size) % USIZE) % USIZE
        = h.m_used + (HEADER_SIZE + b.size)
      rw [Nat.mod_eq_of_lt (show HEADER_SIZE + b.size < USIZE by omega),
        Nat.mod_eq_of_lt (show h.m_used + (HEADER_SIZE + b.size) < USIZE by omega)]

/-- C4 counterexample: on a fresh 1024-byte heap whose base address is
16, `allocate(10, 32)` succeeds with the aligned pointer 64, but the
required padding is 24, which exceeds `alignof(std::max_align_t)`; the
pad-scan of `deallocate(64)` finds no header at any scanned offset and the
fallback reads a location holding no block header, so the round-trip does
not recover the block that `allocate` wrote (undefined behaviour in the
source, `none` in the model). -/
theorem heap_roundtrip_counterexample :
    ((FreeListAllocator.mkOwned 16 1024 Strategy.FirstFit).allocate 10 32).1
      = some 64 ∧
    64 % 32 = 0 ∧
    ((FreeListAllocator.mkOwned 16 1024 Strategy.FirstFit).allocate 10
      32).2.deallocate 64 = none := by
  refine ⟨by decide, by decide, by decide⟩

/-- C4 (amended): for every power-of-two alignment, when `allocate`
succeeds on a well-formed heap the returned pointer is aligned, and
whenever the padding in front of the chosen block's data does not exceed
`alignof(std::max_align_t)` — the width of the recovery scan — an
immediately following `deallocate` recovers exactly the header `allocate`
wrote and restores `used_size()` to its pre-allocate value. -/
theorem heap_alignment_roundtrip (h : FreeListAllocator) (size align k : Nat)
    (a : Nat) (b : BlockHeader) (hwf : HeapWF h) (hsz : size ≠ 0)
    (halign : align = 2 ^ k) (hk : k ≤ 8)
    (hfind : h.findBlock (max size MIN_BLOCK_SIZE) align = some (a, b))
    (hpad : calc_padding (a + HEADER_SIZE) align ≤ MAX_ALIGN_T) :
    ∃ p h2, (h.allocate size align).1 = some p ∧
      p % align = 0 ∧
      (h.allocate size align).2.deallocate p = some h2 ∧
      h2.used_size = h.used_size ∧
      h2.m_size = h.m_size ∧ h2.m_memory = h.m_memory := by
  obtain ⟨S, hret, hlook1, hSle, hused1⟩ :=
    heap_allocate_state h size align hwf hsz hfind
  have hwf1 := (heap_allocate_WF h size align hwf).1
  have hmem1 := (heap_allocate_WF h size align hwf).2.1
  have hsize1 := (heap_allocate_WF h size align hwf).2.2
  have hU : USIZE = 18446744073709551616 := USIZE_eq
  have h62 : (2 : Nat) ^ 62 = 4611686018427387904 := two62_eq
  have hH : HEADER_SIZE = 24 := rfl
  have hMA : MAX_ALIGN_T = 16 := rfl
  have hmemge : h.m_memory ≤ a := lookupAt_ge (findBlock_spec hfind).2.1
  have hbsz : HEADER_SIZE + b.size ≤ h.m_size := by
    have := lookupAt_size_le (findBlock_spec hfind).2.1
    have hH1 := hwf.2.1
    omega
  have hnowrap : a + HEADER_SIZE + calc_padding (a + HEADER_SIZE) align < USIZE := by
    obtain ⟨_, hH1, _, _, _⟩ := hwf
    have := lookupAt_end_le (findBlock_spec hfind).2.1
    rw [hH1] at this
    omega
  have hpmod : (a + HEADER_SIZE + calc_padding (a + HEADER_SIZE) align) % USIZE
      = a + HEADER_SIZE + calc_padding (a + HEADER_SIZE) align :=
    Nat.mod_eq_of_lt hnowrap
  have hpadstore : calc_padding (a + HEADER_SIZE) align % 256
      = calc_padding (a + HEADER_SIZE) align :=
    Nat.mod_eq_of_lt (by omega)
  rw [hpadstore] at hlook1
  obtain ⟨h2, hde, hwf2, hused2, hsz2, hmm2, _⟩ :=
    heap_deallocate_WF (h.allocate size align).2 a
      { size := S, is_free := false,
        padding := calc_padding (a + HEADER_SIZE) align }
      hwf1 hlook1 rfl (by show calc_padding (a + HEADER_SIZE) align ≤ _; omega)
  refine ⟨(a + HEADER_SIZE + calc_padding (a + HEADER_SIZE) align) % USIZE, h2,
    hret, ?_, ?_, ?_, by omega, by omega⟩
  · rw [hpmod, halign]
    exact calc_padding_aligns (a + HEADER_SIZE) k (by omega)
  · rw [hpmod]
    exact hde
  · show h2.m_used = h.m_used
    rw [hused2, hused1]
    show h.m_used + (HEADER_SIZE + S) - (HEADER_SIZE + S) = h.m_used
    omega

/-- Witness for C4 on a fresh 1024-byte heap at base 0: `allocate(10, 32)`
needs only 8 bytes of padding, and the round-trip restores `used_size` to
0. -/
theorem heap_alignment_roundtrip_witness :
    ∃ p h2,
      ((FreeListAllocator.mkOwned 0 1024 Strategy.FirstFit).allocate 10
        32).1 = some p ∧
      p % 32 = 0 ∧
      ((FreeListAllocator.mkOwned 0 1024 Strategy.FirstFit).allocate 10
        32).2.deallocate p = some h2 ∧
      h2.used_size = (FreeListAllocator.mkOwned 0 1024
        Strategy.FirstFit).used_size ∧
      h2.m_size = (FreeListAllocator.mkOwned 0 1024 Strategy.FirstFit).m_size ∧
      h2.m_memory = (FreeListAllocator.mkOwned 0 1024
        Strategy.FirstFit).m_memory :=
  heap_alignment_roundtrip (FreeListAllocator.mkOwned 0 1024 Strategy.FirstFit)
    10 32 5 0 ⟨1000, true, 0⟩
    (HeapWF_single _ (by decide) (by decide) (by decide) (by decide)
      (by decide))
    (by decide) (by decide) (by decide) (by decide) (by decide)

/-- A heap whose freelist starts with a small free block at the base
followed by a large free block at 32. -/
def heapC5 : FreeListAllocator :=
  { m_memory := 0, m_size := 556, m_used := 0, m_strategy := Strategy.FirstFit,
    blocks := [⟨8, true, 0⟩, ⟨500, true, 0⟩],
    m_free_list := [0, 32], m_owns_memory := false }

/-- C5 counterexample: allocating 100 bytes from `heapC5` splits the
500-byte block at address 32 into a 100-byte used block and a 376-byte
residual at address 156, but the residual ends up after the remaining
head node 0 of the freelist — `split_block` links it after the split
block, so it is not inserted at the head. -/
theorem heap_split_head_counterexample :
    (heapC5.allocate 100 1).1 = some 56 ∧
    (heapC5.allocate 100 1).2.blocks
      = [⟨8, true, 0⟩, ⟨100, false, 0⟩, ⟨376, true, 0⟩] ∧
    (heapC5.allocate 100 1).2.m_free_list = [0, 156] ∧
    ¬ (heapC5.allocate 100 1).2.m_free_list.head? = some 156 := by
  refine ⟨by decide, by decide, by decide, by decide⟩

/-- C5 (amended): when `allocate` splits a free block `b`, the residual
free block created at `addr(b) + HEADER_SIZE + padding + size` takes the
freelist position directly after the nodes that preceded `b`: `b`'s
successor pointer is copied into the residual and `b` itself is unlinked,
so the freelist changes from `l1 ++ b :: l2` to `l1 ++ residual :: l2`
rather than getting the residual at its head. -/
theorem heap_split_residual_position (h : FreeListAllocator)
    (size align : Nat) (hsz : size ≠ 0) (a : Nat) (b : BlockHeader)
    (l1 l2 : List Nat) (hfl : h.m_free_list = l1 ++ a :: l2) (ha : a ∉ l1)
    (hfind : h.findBlock (max size MIN_BLOCK_SIZE) align = some (a, b))
    (hgd : ((calc_padding (a + HEADER_SIZE) align + max size MIN_BLOCK_SIZE)
      % USIZE + HEADER_SIZE + MIN_BLOCK_SIZE) % USIZE ≤ b.size) :
    (h.allocate size align).2.m_free_list =
      l1 ++ ((a + HEADER_SIZE + calc_padding (a + HEADER_SIZE) align
        + max size MIN_BLOCK_SIZE) % USIZE) :: l2 := by
  rw [h.allocate_eq_split size align hsz hfind hgd]
  show removeFirst (insertAfter h.m_free_list a
    ((a + HEADER_SIZE + calc_padding (a + HEADER_SIZE) align
      + max size MIN_BLOCK_SIZE) % USIZE)) a = _
  rw [hfl, insertAfter_eq l1 l2 a _ ha]
  exact removeFirst_eq l1 (((a + HEADER_SIZE
    + calc_padding (a + HEADER_SIZE) align
    + max size MIN_BLOCK_SIZE) % USIZE) :: l2) a ha

/-- Witness for C5 on `heapC5`: the freelist `[0, 32]` becomes `[0, 156]`
— the residual of the split sits where the split block was, after node
0. -/
theorem heap_split_residual_position_witness :
    (heapC5.allocate 100 1).2.m_free_list =
      [0] ++ ((32 + HEADER_SIZE + calc_padding (32 + HEADER_SIZE) 1
        + max 100 MIN_BLOCK_SIZE) % USIZE) :: [] :=
  heap_split_residual_position heapC5 100 1 (by decide) 32 ⟨500, true, 0⟩
    [0] [] (by decide) (by decide) (by decide) (by decide)

/-- C10: a moved-from engine is inert.  The moved-from bump allocator
refuses every allocation (for the supported power-of-two alignments and
`size_t` request sizes) and reports zero total and used size; the
moved-from pool and heap allocators refuse every allocation unchanged and
report zero total and used size. -/
theorem moved_from_inert :
    (∀ (size align k : Nat), align = 2 ^ k → k < 64 → size < USIZE →
      StackAllocator.movedFrom.allocate size align
        = (none, StackAllocator.movedFrom)) ∧
    StackAllocator.movedFrom.total_size = 0 ∧
    StackAllocator.movedFrom.used_size = 0 ∧
    (∀ (cs al : Nat),
      (PoolAllocator.movedFrom cs al).allocate
        = (none, PoolAllocator.movedFrom cs al) ∧
      (PoolAllocator.movedFrom cs al).total_size = 0 ∧
      (PoolAllocator.movedFrom cs al).used_size = 0) ∧
    (∀ (strat : Strategy) (size align : Nat),
      (FreeListAllocator.movedFrom strat).allocate size align
        = (none, FreeListAllocator.movedFrom strat) ∧
      (FreeListAllocator.movedFrom strat).total_size = 0 ∧
      (FreeListAllocator.movedFrom strat).used_size = 0) := by
  refine ⟨?_, rfl, rfl, ?_, ?_⟩
  · intro size align k hal hk hszlt
    by_cases h0 : size = 0
    · simp [StackAllocator.allocate, h0]
    · have hp0 : calc_padding ((StackAllocator.movedFrom.m_memory
          + StackAllocator.movedFrom.m_offset) % USIZE) align = 0 := by
        show calc_padding ((0 + 0) % USIZE) align = 0
        rw [hal]
        norm_num
        rw [calc_padding_pow2 0 k hk]
        simp
      have hcond : StackAllocator.movedFrom.m_size <
          (StackAllocator.movedFrom.m_offset
            + calc_padding ((StackAllocator.movedFrom.m_memory
              + StackAllocator.movedFrom.m_offset) % USIZE) align + size)
            % USIZE := by
        rw [hp0]
        show (0 : Nat) < (0 + 0 + size) % USIZE
        have hmod : (0 + 0 + size) % USIZE = size := by
          simp only [Nat.zero_add]
          exact Nat.mod_eq_of_lt hszlt
        rw [hmod]
        omega
      unfold StackAllocator.allocate
      rw [if_neg h0, if_pos hcond]
  · intro cs al
    refine ⟨rfl, rfl, ?_⟩
    show (wsub 0 0 * cs) % USIZE = 0
    have h00 : wsub 0 0 = 0 := by decide
    rw [h00, Nat.zero_mul, Nat.zero_mod]
  · intro strat size align
    refine ⟨?_, rfl, rfl⟩
    by_cases h0 : size = 0
    · simp [FreeListAllocator.allocate, h0]
    · have hfb : (FreeListAllocator.movedFrom strat).findBlock
          (max size MIN_BLOCK_SIZE) align = none := by
        unfold FreeListAllocator.findBlock
        cases strat <;> rfl
      unfold FreeListAllocator.allocate
      rw [if_neg h0]
      simp only [hfb]

/-- Witness for C10's quantified stack part at a concrete request. -/
theorem moved_from_inert_witness :
    StackAllocator.movedFrom.allocate 100 8
      = (none, StackAllocator.movedFrom) :=
  moved_from_inert.1 100 8 3 (by norm_num) (by norm_num)
    (by norm_num [USIZE])
